import Mathlib

/-!
Verification of the Mahjong game engine found in `src/App.tsx`.

The definitions below are a shallow embedding of the engine's
data model and transition functions.  JavaScript arrays become
Lean lists (the deck is popped from its end, as in the source),
the `Record<string, number>` multiplicity map of `canHu` becomes
a function `Kind → Nat` together with the fixed key list that the
source obtains from `Object.keys`, and the React `setGame` /
`setPendingActions` updates become pure functions on an explicit
engine state.  Tile ids are modelled by the numeric counter that
the source embeds in the string `tile-<n>` (the mapping is
injective, so id equality is preserved).
-/

namespace Mahjong

/-- The five tile suits of the source (`type Suit`). -/
inductive Suit where
  | Wan | Tiao | Tong | Wind | Dragon
deriving DecidableEq

/-- A tile kind: (suit, value), the identity used by `isSameTile`
and the `suit-value` keys of `canHu`. -/
abbrev Kind := Suit × Nat

/-- A physical tile (`interface Tile`). -/
structure Tile where
  id : Nat
  suit : Suit
  value : Nat
  name : String
deriving DecidableEq

def tileKind (t : Tile) : Kind := (t.suit, t.value)

/-- A meld (`interface Meld`).  The source stores the action string
itself in the `type` field (it casts the Chinese action string with
`as any`), so the field is a `String` here as well. -/
structure Meld where
  type : String
  tiles : List Tile
  fromPlayer : Option (Fin 4)
deriving DecidableEq

/-- Per-seat state (`interface PlayerState`). -/
structure PlayerState where
  id : Fin 4
  name : String
  isAI : Bool
  hand : List Tile
  melds : List Meld
  discards : List Tile
  score : Nat
  isDealer : Bool
deriving DecidableEq

inductive Phase where
  | Dealing | Playing | ActionWindow | GameOver
deriving DecidableEq

inductive WinType where
  | SelfDraw | Discard
deriving DecidableEq

/-- The authoritative game state (`interface GameState`).  The four
players of the source array are indexed by `Fin 4`. -/
structure GameState where
  deck : List Tile
  players : Fin 4 → PlayerState
  currentTurn : Fin 4
  lastDiscard : Option (Tile × Fin 4)
  phase : Phase
  winner : Option (Fin 4)
  winType : Option WinType
  logs : List String
  wallCount : Nat

/-- One entry of the `pendingActions` React state. -/
structure PendingEntry where
  player : Fin 4
  actions : List String
deriving DecidableEq

/-- The game state together with the `pendingActions` component
(a separate `useState` in the source). -/
structure EngineState where
  game : GameState
  pending : List PendingEntry

/-! ### Deck construction -/

def SUITS : List Suit := [Suit.Wan, Suit.Tiao, Suit.Tong]
def WINDS : List String := ["东", "南", "西", "北"]
def DRAGONS : List String := ["中", "发", "白"]

def suitLabel (s : Suit) : String :=
  match s with
  | Suit.Wan => "万"
  | Suit.Tiao => "条"
  | Suit.Tong => "筒"
  | Suit.Wind => ""
  | Suit.Dragon => ""

/-- Display name of a tile kind, as built by `createDeck`. -/
def tileName (k : Kind) : String :=
  match k.1 with
  | Suit.Wind => WINDS.getD (k.2 - 1) ""
  | Suit.Dragon => DRAGONS.getD (k.2 - 1) ""
  | s => toString k.2 ++ suitLabel s

/-- Kinds in the order `createDeck` pushes them: the three numeric
suits with values 1–9, then winds 1–4, then dragons 1–3. -/
def deckKindOrder : List Kind :=
  (SUITS.flatMap fun s => (List.range 9).map fun v => (s, v + 1)) ++
  ((List.range 4).map fun v => (Suit.Wind, v + 1)) ++
  ((List.range 3).map fun v => (Suit.Dragon, v + 1))

/-- `createDeck`: four consecutive copies of every kind, ids assigned
by the running counter (the source id is the string `tile-<n>`). -/
def createDeck : List Tile :=
  (deckKindOrder.flatMap fun k => List.replicate 4 k).enum.map
    fun p => { id := p.1, suit := p.2.1, value := p.2.2, name := tileName p.2 }

/-! ### Hand utilities -/

/-- Suit ranking of `sortHand` (`Wan 0, Tong 1, Tiao 2, Wind 3, Dragon 4`). -/
def suitOrder (s : Suit) : Nat :=
  match s with
  | Suit.Wan => 0
  | Suit.Tong => 1
  | Suit.Tiao => 2
  | Suit.Wind => 3
  | Suit.Dragon => 4

def tileLE (a b : Tile) : Prop :=
  suitOrder a.suit < suitOrder b.suit ∨
    (suitOrder a.suit = suitOrder b.suit ∧ a.value ≤ b.value)

instance : DecidableRel tileLE := fun a b => by unfold tileLE; exact inferInstance

instance : IsTotal Tile tileLE :=
  ⟨fun a b => by unfold tileLE; omega⟩

instance : IsTrans Tile tileLE :=
  ⟨fun a b c hab hbc => by unfold tileLE at *; omega⟩

/-- `sortHand`: stable sort by suit order then value (JS `sort` is stable,
and insertion sort reproduces a stable sort's output). -/
def sortHand (hand : List Tile) : List Tile := hand.insertionSort tileLE

/-- `isSameTile`: same suit and value. -/
def isSameTile (a b : Tile) : Bool :=
  decide (a.suit = b.suit) && decide (a.value = b.value)

/-! ### Win detection (`canHu`) -/

/-- Multiplicity map of a tile list, keyed by kind
(the `counts` record of `canHu`). -/
def tileCounts (tiles : List Tile) : Kind → Nat :=
  fun k => tiles.countP fun t => decide (tileKind t = k)

/-- Functional update of a multiplicity map
(the `{ ...counts, [key]: n }` spread of the source). -/
def updateCount (c : Kind → Nat) (k : Kind) (n : Nat) : Kind → Nat :=
  fun j => if j = k then n else c j

/-- Rank of a suit in the JS string order of the keys
`"Dragon-v" < "Tiao-v" < "Tong-v" < "Wan-v" < "Wind-v"`. -/
def kindRank (s : Suit) : Nat :=
  match s with
  | Suit.Dragon => 0
  | Suit.Tiao => 1
  | Suit.Tong => 2
  | Suit.Wan => 3
  | Suit.Wind => 4

/-- Key comparison: the JS string sort of `"suit-value"` keys, which for
tiles of the game (single-digit values) is suit rank then value. -/
def kindLE (a b : Kind) : Prop :=
  kindRank a.1 < kindRank b.1 ∨ (kindRank a.1 = kindRank b.1 ∧ a.2 ≤ b.2)

instance : DecidableRel kindLE := fun a b => by unfold kindLE; exact inferInstance

instance : IsTotal Kind kindLE :=
  ⟨fun a b => by unfold kindLE; omega⟩

instance : IsTrans Kind kindLE :=
  ⟨fun a b c hab hbc => by unfold kindLE at *; omega⟩

/-- The key order is antisymmetric (distinct suits have distinct ranks). -/
theorem kindLE_antisymm {a b : Kind} (hab : kindLE a b) (hba : kindLE b a) : a = b := by
  have hs : a.1 = b.1 := by
    have : kindRank a.1 = kindRank b.1 := by unfold kindLE at *; omega
    cases ha : a.1 <;> cases hb : b.1 <;> simp [ha, hb, kindRank] at this ⊢
  have hv : a.2 = b.2 := by unfold kindLE at *; omega
  exact Prod.ext hs hv

/-- The fixed key list of the `counts` record: the distinct kinds of the
hand in sorted order (`Object.keys(...).sort()`). -/
def handKeys (tiles : List Tile) : List Kind :=
  ((tiles.map tileKind).dedup).insertionSort kindLE

def isNumericSuit (s : Suit) : Bool := SUITS.contains s

/-- Updating one key to a smaller value does not increase the total
multiplicity over any key list. -/
theorem sum_map_updateCount_le (l : List Kind) (c : Kind → Nat) (k : Kind) (n : Nat)
    (h : n ≤ c k) : (l.map (updateCount c k n)).sum ≤ (l.map c).sum := by
  induction l with
  | nil => simp
  | cons a t ih =>
    simp only [List.map_cons, List.sum_cons]
    have ha : updateCount c k n a ≤ c a := by
      unfold updateCount
      by_cases hak : a = k
      · simp [hak, h]
      · simp [hak]
    omega

/-- Updating a listed key to a strictly smaller value strictly decreases
the total multiplicity. -/
theorem sum_map_updateCount_lt (l : List Kind) (c : Kind → Nat) (k : Kind) (n : Nat)
    (hk : k ∈ l) (h : n < c k) : (l.map (updateCount c k n)).sum < (l.map c).sum := by
  induction l with
  | nil => cases hk
  | cons a t ih =>
    simp only [List.map_cons, List.sum_cons]
    by_cases hak : a = k
    · have h1 : updateCount c k n a = n := by simp [updateCount, hak]
      have h2 : (t.map (updateCount c k n)).sum ≤ (t.map c).sum :=
        sum_map_updateCount_le t c k n (Nat.le_of_lt h)
      rw [h1, hak]
      omega
    · have ha : updateCount c k n a = c a := by simp [updateCount, hak]
      have hkt : k ∈ t := by
        rcases List.mem_cons.mp hk with h' | h'
        · exact absurd h'.symm hak
        · exact h'
      have h2 := ih hkt
      omega

/-- The recursive `checkStandard` of `canHu`: decompose the remaining
multiplicities into `meldsNeeded` groups.  `keys` is the fixed key list
of the record; each call filters it to the positive keys and examines
the lexicographically first one, trying a triplet and then a sequence.
The JS recursion terminates because every call removes three tiles; the
`fuel` parameter makes that explicit (any fuel exceeding the remaining
tile count gives the JS result, and `canHu` passes the hand length). -/
def checkStandard (keys : List Kind) : Nat → (Kind → Nat) → Int → Bool
  | 0, _, _ => false
  | fuel + 1, c, meldsNeeded =>
    match keys.filter (fun k => decide (0 < c k)) with
    | [] => meldsNeeded == 0
    | firstKey :: _ =>
      let tripletOk : Bool :=
        if 3 ≤ c firstKey then
          checkStandard keys fuel (updateCount c firstKey (c firstKey - 3)) (meldsNeeded - 1)
        else false
      if tripletOk then true
      else
        let s := firstKey.1
        let v := firstKey.2
        if isNumericSuit s ∧ v ≤ 7 then
          if 0 < c (s, v + 1) ∧ 0 < c (s, v + 2) then
            checkStandard keys fuel
              (updateCount (updateCount (updateCount c (s, v) (c (s, v) - 1))
                (s, v + 1) (c (s, v + 1) - 1)) (s, v + 2) (c (s, v + 2) - 1))
              (meldsNeeded - 1)
          else false
        else false

/-- `canHu`: try every kind with multiplicity ≥ 2 as the pair, then
decompose the rest into `(n - 2) / 3` groups.  The `melds` argument is
not inspected (only the concealed hand is checked, as in the source). -/
def canHu (hand : List Tile) (melds : List Meld) : Bool :=
  let allTiles := hand
  if allTiles.length % 3 ≠ 2 then false
  else
    let counts := tileCounts allTiles
    let keys := handKeys allTiles
    keys.any fun k =>
      if 2 ≤ counts k then
        checkStandard keys allTiles.length (updateCount counts k (counts k - 2))
          (((allTiles.length : Int) - 2) / 3)
      else false

/-! ### Engine transitions

The source mutates two React states (`game` and `pendingActions`)
through sequential functional updates; each handler below is the
composition of the updates it queues, as a pure function on
`EngineState`.  The timeouts that pace the game merely delay those
updates, so they are folded into the handler that schedules them
(except the Kong replacement draw, which claims model separately). -/

/-- Functional update of the player array
(`newPlayers[playerId] = {...}` on a copy). -/
def updPlayer (ps : Fin 4 → PlayerState) (i : Fin 4) (p : PlayerState) :
    Fin 4 → PlayerState :=
  fun j => if j = i then p else ps j

/-- `addLog`: prepend a message, keeping the 50 most recent entries
(`[msg, ...prev.logs].slice(0, 50)`). -/
def addLog (g : GameState) (msg : String) : GameState :=
  { g with logs := (msg :: g.logs).take 50 }

/-- `deck.pop()`: remove and return the last element.  The source
appends `!`; an empty deck yields JS `undefined`, modelled as `none`. -/
def popDeck (d : List Tile) : Option (Tile × List Tile) :=
  if h : d = [] then none else some (d.getLast h, d.dropLast)

/-- `findIndex` + `splice(idx, 1)`: remove the first element satisfying
the predicate, returning it and the remaining list. -/
def findRemove (p : Tile → Bool) : List Tile → Option (Tile × List Tile)
  | [] => none
  | t :: ts =>
    if p t then some (t, ts)
    else (findRemove p ts).map fun r => (r.1, t :: r.2)

/-- The Pung/Kong removal of `performAction`: collect the indices of all
matching tiles, keep the first `n`, and splice them out (removal in
descending index order leaves exactly the first `n` matches removed).
Returns the removed tiles in ascending index order and the rest. -/
def extractMatches (p : Tile → Bool) : Nat → List Tile → List Tile × List Tile
  | 0, l => ([], l)
  | _, [] => ([], [])
  | n + 1, t :: ts =>
    if p t then
      let r := extractMatches p n ts
      (t :: r.1, r.2)
    else
      let r := extractMatches p (n + 1) ts
      (r.1, t :: r.2)

/-- One `findAndRemove(val)` call of the Chow branch: remove the first
tile of suit `s` and value `v` if present. -/
def removeFirstKind (s : Suit) (v : Int) (l : List Tile) :
    Option Tile × List Tile :=
  match findRemove (fun t => decide (t.suit = s ∧ (t.value : Int) = v)) l with
  | none => (none, l)
  | some r => (some r.1, r.2)

/-- Does the hand hold a tile of suit `s` with value `v`
(`newHand.some(t => t.suit === s && t.value === v)`)?  Values are `Int`
because the JS code forms `v - 2` below 1. -/
def hasKind (s : Suit) (v : Int) (l : List Tile) : Bool :=
  l.any fun t => decide (t.suit = s ∧ (t.value : Int) = v)

/-- The pair of values the Chow branch removes: the lowest completing
sequence available ((v−2,v−1), then (v−1,v+1), then (v+1,v+2); the last
branch is unconditional in the source). -/
def chowPick (tile : Tile) (hand : List Tile) : Int × Int :=
  let v : Int := (tile.value : Int)
  let s := tile.suit
  if hasKind s (v - 2) hand && hasKind s (v - 1) hand then (v - 2, v - 1)
  else if hasKind s (v - 1) hand && hasKind s (v + 1) hand then (v - 1, v + 1)
  else (v + 1, v + 2)

/-- The Chow branch of `performAction`: remove one tile of each of the
two chosen kinds.  Returns the removed tiles in removal order. -/
def chowExtract (tile : Tile) (hand : List Tile) : List Tile × List Tile :=
  let s := tile.suit
  let pick := chowPick tile hand
  let step1 := removeFirstKind s pick.1 hand
  let step2 := removeFirstKind s pick.2 step1.2
  (step1.1.toList ++ step2.1.toList, step2.2)

/-- The `possible` list built by `checkResponseActions` for one seat:
win, pung, kong, and (for the next seat, numeric suits) up to three chow
entries. -/
def responseOptionsFor (players : Fin 4 → PlayerState) (tile : Tile)
    (fromPlayer : Fin 4) (i : Fin 4) : List String :=
  let p := players i
  let sameCount := (p.hand.filter fun t => isSameTile t tile).length
  let isChowSeat := fromPlayer + 1 = p.id ∧ isNumericSuit tile.suit
  let v : Int := (tile.value : Int)
  (if canHu (p.hand ++ [tile]) p.melds then ["胡"] else []) ++
  (if 2 ≤ sameCount then ["碰"] else []) ++
  (if sameCount = 3 then ["杠"] else []) ++
  (if isChowSeat ∧ hasKind tile.suit (v - 2) p.hand ∧
      hasKind tile.suit (v - 1) p.hand then ["吃"] else []) ++
  (if isChowSeat ∧ hasKind tile.suit (v - 1) p.hand ∧
      hasKind tile.suit (v + 1) p.hand then ["吃"] else []) ++
  (if isChowSeat ∧ hasKind tile.suit (v + 1) p.hand ∧
      hasKind tile.suit (v + 2) p.hand then ["吃"] else [])

/-- `checkResponseActions`: compute the claim set for a discard, over
every seat other than the discarder, in seat order.  A seat with no
eligible action is omitted. -/
def checkResponseActions (players : Fin 4 → PlayerState) (tile : Tile)
    (fromPlayer : Fin 4) : List PendingEntry :=
  (List.finRange 4).filterMap fun i =>
    let p := players i
    if p.id = fromPlayer then none
    else
      let possible := responseOptionsFor players tile fromPlayer i
      if possible.isEmpty then none else some ⟨p.id, possible⟩

/-- `nextTurn`: draw for `playerId`, or declare the stalemate when the
wall is empty.  `setPendingActions([])` runs in both cases.  Note the
stalemate log entry is prepended without the 50-entry truncation. -/
def nextTurn (st : EngineState) (playerId : Fin 4) : EngineState :=
  let g := st.game
  if h : g.deck = [] then
    { game := { g with
        phase := Phase.GameOver, winner := none,
        logs := "流局！牌墙已空。" :: g.logs },
      pending := [] }
  else
    let drawnTile := g.deck.getLast h
    let newDeck := g.deck.dropLast
    let p := g.players playerId
    let players1 := updPlayer g.players playerId
      { p with hand := sortHand (p.hand ++ [drawnTile]) }
    { game := { g with
        deck := newDeck, players := players1,
        currentTurn := playerId, phase := Phase.Playing, lastDiscard := none,
        wallCount := newDeck.length },
      pending := [] }

/-- `handleDiscard`: guarded by `phase === 'Playing'` and the tile being
present in the seat's hand (the current turn is *not* checked).  On
success: move the tile to the seat's discard pile, open the action
window, log, and compute the claim set; when the claim set is empty the
scheduled `nextTurn` for the next seat fires (folded in here).
`checkResponseActions` reads the pre-discard players (a stale closure in
the source), which agrees with the new state on every other seat. -/
def handleDiscard (st : EngineState) (playerId : Fin 4) (tileId : Nat) :
    EngineState :=
  if st.game.phase ≠ Phase.Playing then st
  else
    let player := st.game.players playerId
    match findRemove (fun t => decide (t.id = tileId)) player.hand with
    | none => st
    | some r =>
      let tile := r.1
      let newHand := r.2
      let players1 := updPlayer st.game.players playerId
        { player with
          hand := sortHand newHand,
          discards := player.discards ++ [tile] }
      let g1 := { st.game with
        players := players1,
        lastDiscard := some (tile, playerId), phase := Phase.ActionWindow }
      let g2 := addLog g1 (player.name ++ " 打出了 " ++ tile.name)
      let acts := checkResponseActions st.game.players tile playerId
      if acts.isEmpty then nextTurn { game := g2, pending := [] } (playerId + 1)
      else { game := g2, pending := acts }

/-- The hand tiles removed by a claim: the first two matches for Pung,
every match for Kong (the removed tiles in the source's descending
splice order, hence the reverse), the chosen adjacent pair for Chow. -/
def claimExtract (action : String) (tile : Tile) (hand : List Tile) :
    List Tile × List Tile :=
  if action = "碰" then
    let r := extractMatches (fun t => isSameTile t tile) 2 hand
    (r.1.reverse, r.2)
  else if action = "杠" then
    let r := extractMatches (fun t => isSameTile t tile) hand.length hand
    (r.1.reverse, r.2)
  else chowExtract tile hand

/-- The Pung/Kong/Chow branch of `performAction`: move the matching
tiles and the claimed tile into a new meld, drop the last discard of the
discarder, hand the turn to the claimant and re-open play. -/
def resolveClaim (g : GameState) (tile : Tile) (fromPlayer playerId : Fin 4)
    (action : String) : GameState :=
  let actor := g.players playerId
  let target := g.players fromPlayer
  let extracted := claimExtract action tile actor.hand
  let tilesToMeld := tile :: extracted.1
  let newHand := extracted.2
  let players1 := updPlayer g.players playerId
    { actor with
      hand := sortHand newHand,
      melds := actor.melds ++
        [{ type := action, tiles := tilesToMeld,
           fromPlayer := some fromPlayer }] }
  let players2 := updPlayer players1 fromPlayer
    { target with discards := target.discards.dropLast }
  { g with
    players := players2, currentTurn := playerId,
    phase := Phase.Playing, lastDiscard := none,
    logs := (actor.name ++ " " ++ action ++ "了 " ++ tile.name) :: g.logs }

/-- `performAction`: resolve a claim.  The only guard is a present
`lastDiscard` (phase and claim-set membership are *not* checked).  Win
ends the game; Pung/Kong/Chow move tiles into a new meld, remove the
last discard of the discarder, hand the turn to the claimant and re-open
play.  `setPendingActions([])` runs whenever the guard passes. -/
def performAction (st : EngineState) (playerId : Fin 4) (action : String) :
    EngineState :=
  match st.game.lastDiscard with
  | none => st
  | some ld =>
    let tile := ld.1
    let fromPlayer := ld.2
    let g := st.game
    let actor := g.players playerId
    let target := g.players fromPlayer
    if action = "胡" then
      { game := { g with
          phase := Phase.GameOver, winner := some playerId,
          winType := some WinType.Discard,
          logs := (actor.name ++ " 胡牌了！点炮者：" ++ target.name) :: g.logs },
        pending := [] }
    else if action = "碰" ∨ action = "杠" ∨ action = "吃" then
      { game := resolveClaim g tile fromPlayer playerId action, pending := [] }
    else
      { game := g, pending := [] }

/-- The Kong replacement draw scheduled by `performAction` for `杠`.
The source pops the deck without an emptiness check; popping an empty
deck yields JS `undefined` and corrupts the hand, modelled as `none`. -/
def kongReplacementDraw (st : EngineState) (playerId : Fin 4) :
    Option EngineState :=
  match popDeck st.game.deck with
  | none => none
  | some r =>
    let p := st.game.players playerId
    let players1 := updPlayer st.game.players playerId
      { p with hand := sortHand (p.hand ++ [r.1]) }
    some { st with game := { st.game with
      deck := r.2, players := players1, wallCount := r.2.length } }

/-- The AI response chooser of the `ActionWindow` effect: take the
*first* pending AI entry and pick its strongest action
(`胡 > 杠 > 碰 > 吃`).  `none` models the pass branch (unreachable,
since every pending entry is nonempty). -/
def aiRespond (players : Fin 4 → PlayerState) (pending : List PendingEntry) :
    Option (Fin 4 × String) :=
  match pending.filter (fun e => (players e.player).isAI) with
  | [] => none
  | best :: _ =>
    if best.actions.contains "胡" then some (best.player, "胡")
    else if best.actions.contains "杠" then some (best.player, "杠")
    else if best.actions.contains "碰" then some (best.player, "碰")
    else if best.actions.contains "吃" then some (best.player, "吃")
    else none

/-- One firing of the AI response effect: apply the chosen action. -/
def aiStep (st : EngineState) : EngineState :=
  match aiRespond st.game.players st.pending with
  | some r => performAction st r.1 r.2
  | none => st

/-! ### Session initialisation (`initGame`) -/

/-- The four seats as `initGame` creates them. -/
def initPlayers : Fin 4 → PlayerState := fun i =>
  { id := i,
    name := if i = 0 then "你" else if i = 1 then "AI 东"
      else if i = 2 then "AI 南" else "AI 西",
    isAI := decide (i ≠ 0), hand := [], melds := [], discards := [],
    score := 100, isDealer := decide (i = 0) }

/-- Pop one tile for seat `i` (`p.hand.push(deck.pop()!)`). -/
def dealOne (i : Fin 4) (s : List Tile × (Fin 4 → PlayerState)) :
    Option (List Tile × (Fin 4 → PlayerState)) :=
  match popDeck s.1 with
  | none => none
  | some r =>
    some (r.2, updPlayer s.2 i { s.2 i with hand := (s.2 i).hand ++ [r.1] })

/-- One round of the deal loop: every seat draws once, in seat order. -/
def dealRound (s : List Tile × (Fin 4 → PlayerState)) :
    Option (List Tile × (Fin 4 → PlayerState)) :=
  (((dealOne 0 s).bind (dealOne 1)).bind (dealOne 2)).bind (dealOne 3)

/-- The 13 deal rounds. -/
def dealAll : Nat → List Tile × (Fin 4 → PlayerState) →
    Option (List Tile × (Fin 4 → PlayerState))
  | 0, s => some s
  | n + 1, s => (dealRound s).bind (dealAll n)

/-- `initGame` applied to an already-shuffled deck (the shuffle is the
engine's only randomness, so it is a parameter here): deal 13 tiles to
every seat round-robin, a 14th to the dealer, sort all hands, and enter
`Playing` with the dealer to move.  `none` models the `deck.pop()!` of
an undersized deck. -/
def initGame (deck : List Tile) : Option EngineState :=
  (dealAll 13 (deck, initPlayers)).bind fun s =>
    (popDeck s.1).bind fun r =>
      let ps2 := updPlayer s.2 0 { s.2 0 with hand := (s.2 0).hand ++ [r.1] }
      let ps3 := fun i => { ps2 i with hand := sortHand (ps2 i).hand }
      some
        { game := {
            deck := r.2, players := ps3, currentTurn := 0,
            lastDiscard := none, phase := Phase.Playing, winner := none,
            winType := none, logs := ["游戏开始，你是庄家。"],
            wallCount := r.2.length },
          pending := [] }

/-! ### Specification-side predicates for win detection

These formalise the spec's wording: a winning hand is one pair plus
`(n-2)/3` groups, each group a triplet of one kind or a run of three
consecutive values in a numeric suit. -/

/-- Valid tile kinds: numeric suits 1–9, winds 1–4, dragons 1–3. -/
def validKind (k : Kind) : Bool :=
  match k.1 with
  | Suit.Wind => decide (1 ≤ k.2 ∧ k.2 ≤ 4)
  | Suit.Dragon => decide (1 ≤ k.2 ∧ k.2 ≤ 3)
  | _ => decide (1 ≤ k.2 ∧ k.2 ≤ 9)

/-- A triplet: three identical kinds. -/
def IsTriplet (g : Multiset Kind) : Prop := ∃ k, g = Multiset.replicate 3 k

/-- A sequence: three consecutive values in one numeric suit. -/
def IsSequence (g : Multiset Kind) : Prop :=
  ∃ s v, isNumericSuit s = true ∧ g = {(s, v), (s, v + 1), (s, v + 2)}

/-- A multiset of kinds splits into `n` groups, each a triplet or a
sequence. -/
inductive GroupsDecomp : Multiset Kind → Nat → Prop where
  | nil : GroupsDecomp 0 0
  | cons {g m : Multiset Kind} {n : Nat} :
      IsTriplet g ∨ IsSequence g → GroupsDecomp m n → GroupsDecomp (g + m) (n + 1)

/-- The spec's winning shape: exactly one pair plus `(card - 2) / 3`
triplet-or-sequence groups. -/
def SpecWin (ms : Multiset Kind) : Prop :=
  ∃ p rest, ms = Multiset.replicate 2 p + rest ∧
    GroupsDecomp rest ((Multiset.card ms - 2) / 3)

/-! ### The multiset represented by a multiplicity map -/

/-- The multiset described by a multiplicity map restricted to a key
list. -/
def countsMs (keys : List Kind) (c : Kind → Nat) : Multiset Kind :=
  (keys.map fun k => Multiset.replicate (c k) k).sum

theorem count_countsMs (keys : List Kind) (hnd : keys.Nodup) (c : Kind → Nat)
    (j : Kind) :
    (countsMs keys c).count j = if j ∈ keys then c j else 0 := by
  induction keys with
  | nil => simp [countsMs]
  | cons a t ih =>
    rcases List.nodup_cons.mp hnd with ⟨hat, hnt⟩
    have : countsMs (a :: t) c = Multiset.replicate (c a) a + countsMs t c := by
      simp [countsMs]
    rw [this, Multiset.count_add, Multiset.count_replicate, ih hnt]
    by_cases hja : j = a
    · subst hja
      simp [hat]
    · have haj : ¬a = j := fun h => hja h.symm
      simp [hja, haj, List.mem_cons]

theorem card_countsMs (keys : List Kind) (c : Kind → Nat) :
    Multiset.card (countsMs keys c) = (keys.map c).sum := by
  induction keys with
  | nil => simp [countsMs]
  | cons a t ih =>
    have : countsMs (a :: t) c = Multiset.replicate (c a) a + countsMs t c := by
      simp [countsMs]
    rw [this]
    simp [ih]

theorem countsMs_eq_zero (keys : List Kind) (c : Kind → Nat)
    (h : ∀ k ∈ keys, c k = 0) : countsMs keys c = 0 := by
  induction keys with
  | nil => simp [countsMs]
  | cons a t ih =>
    have ha : c a = 0 := h a (List.mem_cons_self _ _)
    have : countsMs (a :: t) c = Multiset.replicate (c a) a + countsMs t c := by
      simp [countsMs]
    rw [this, ha]
    simp [ih fun k hk => h k (List.mem_cons_of_mem _ hk)]

/-- Extracting `c k - n` copies of `k` from the represented multiset by
lowering the multiplicity of `k` to `n`. -/
theorem countsMs_update (keys : List Kind) (hnd : keys.Nodup) (c : Kind → Nat)
    (k : Kind) (hk : k ∈ keys) (n : Nat) (hn : n ≤ c k) :
    countsMs keys c = countsMs keys (updateCount c k n) +
      Multiset.replicate (c k - n) k := by
  rw [Multiset.ext]
  intro j
  rw [Multiset.count_add, count_countsMs keys hnd, count_countsMs keys hnd,
    Multiset.count_replicate]
  by_cases hjk : j = k
  · subst hjk
    simp [hk, updateCount]
    omega
  · have hkj : ¬k = j := fun h => hjk h.symm
    simp [hjk, hkj, updateCount]

theorem updateCount_le_pointwise (c : Kind → Nat) (k : Kind) (n : Nat)
    (hn : n ≤ c k) (j : Kind) : updateCount c k n j ≤ c j := by
  unfold updateCount
  by_cases hjk : j = k
  · simp [hjk, hn]
  · simp [hjk]

theorem nodup_handKeys (tiles : List Tile) : (handKeys tiles).Nodup :=
  (List.perm_insertionSort kindLE _).nodup_iff.mpr (List.nodup_dedup _)

theorem mem_handKeys (tiles : List Tile) (j : Kind) :
    j ∈ handKeys tiles ↔ 0 < tileCounts tiles j := by
  unfold handKeys tileCounts
  rw [(List.perm_insertionSort kindLE _).mem_iff, List.mem_dedup, List.mem_map,
    List.countP_pos_iff]
  constructor
  · rintro ⟨t, ht, hkt⟩
    exact ⟨t, ht, decide_eq_true hkt⟩
  · rintro ⟨t, ht, hdec⟩
    exact ⟨t, ht, of_decide_eq_true hdec⟩

theorem tileCounts_eq_count (tiles : List Tile) (j : Kind) :
    tileCounts tiles j =
      Multiset.count j ((tiles.map tileKind : List Kind) : Multiset Kind) := by
  induction tiles with
  | nil => simp [tileCounts]
  | cons t ts ih =>
    simp only [tileCounts] at ih ⊢
    rw [List.countP_cons, List.map_cons, ← Multiset.cons_coe,
      Multiset.count_cons, ih]
    by_cases h : tileKind t = j
    · simp [h]
    · simp [h, Ne.symm h]

/-- The multiplicity map of a hand together with its key list represents
exactly the multiset of the hand's kinds. -/
theorem countsMs_handKeys (tiles : List Tile) :
    countsMs (handKeys tiles) (tileCounts tiles) =
      (tiles.map tileKind : Multiset Kind) := by
  have hnd := nodup_handKeys tiles
  rw [Multiset.ext]
  intro j
  rw [count_countsMs _ hnd, ← tileCounts_eq_count]
  by_cases hj : j ∈ handKeys tiles
  · simp [hj]
  · have h0 : tileCounts tiles j = 0 := by
      by_contra hne
      exact hj ((mem_handKeys tiles j).mpr (Nat.pos_of_ne_zero hne))
    simp [hj, h0]

theorem sorted_handKeys (tiles : List Tile) :
    (handKeys tiles).Sorted kindLE :=
  List.sorted_insertionSort kindLE _

theorem kindLE_refl (a : Kind) : kindLE a a := by unfold kindLE; omega

/-! ### Soundness and completeness of `checkStandard` -/

theorem supp_mono {keys : List Kind} {c c' : Kind → Nat}
    (hle : ∀ j, c' j ≤ c j) (hsupp : ∀ k, 0 < c k → k ∈ keys) :
    ∀ k, 0 < c' k → k ∈ keys :=
  fun k hk => hsupp k (lt_of_lt_of_le hk (hle k))

theorem group_card {g : Multiset Kind} (h : IsTriplet g ∨ IsSequence g) :
    Multiset.card g = 3 := by
  rcases h with ⟨k, rfl⟩ | ⟨s, v, _, rfl⟩
  · simp
  · simp [Multiset.insert_eq_cons]

theorem groupsDecomp_card {M : Multiset Kind} {n : Nat}
    (h : GroupsDecomp M n) : Multiset.card M = 3 * n := by
  induction h with
  | nil => simp
  | cons hg _ ih =>
    rw [Multiset.card_add, group_card hg, ih]
    ring

/-- A decomposition of a multiset containing `k` can be rearranged so
that a group containing `k` comes first. -/
theorem groupsDecomp_extract {M : Multiset Kind} {n : Nat}
    (h : GroupsDecomp M n) {k : Kind} (hk : k ∈ M) :
    ∃ g M' n', (IsTriplet g ∨ IsSequence g) ∧ k ∈ g ∧ M = g + M' ∧
      n = n' + 1 ∧ GroupsDecomp M' n' := by
  induction h with
  | nil => cases hk
  | @cons g m n hg hrec ih =>
    rcases Multiset.mem_add.mp hk with hkg | hkm
    · exact ⟨g, m, n, hg, hkg, rfl, rfl, hrec⟩
    · obtain ⟨g', m', n', hg', hkg', hm, hn, hdec⟩ := ih hkm
      refine ⟨g', g + m', n' + 1, hg', hkg', ?_, by omega, GroupsDecomp.cons hg hdec⟩
      rw [hm]
      have : g + (g' + m') = g' + (g + m') := by
        rw [← add_assoc, add_comm g g', add_assoc]
      exact this

/-- Soundness of the decomposition search: a positive answer yields a
spec-level decomposition of the represented multiset. -/
theorem checkStandard_sound (fuel : Nat) :
    ∀ (keys : List Kind) (c : Kind → Nat) (m : Int),
      keys.Nodup → (∀ k, 0 < c k → k ∈ keys) →
      checkStandard keys fuel c m = true →
      ∃ n : Nat, m = (n : Int) ∧ GroupsDecomp (countsMs keys c) n := by
  induction fuel with
  | zero =>
    intro keys c m _ _ h
    simp [checkStandard] at h
  | succ fuel ih =>
    intro keys c m hnd hsupp h
    rw [checkStandard] at h
    cases hfil : keys.filter (fun k => decide (0 < c k)) with
    | nil =>
      rw [hfil] at h
      have hm : m = 0 := by simpa using h
      have hz : countsMs keys c = 0 := by
        apply countsMs_eq_zero
        intro k hk
        have := List.filter_eq_nil.mp hfil k hk
        simp at this
        omega
      exact ⟨0, by simp [hm], hz ▸ GroupsDecomp.nil⟩
    | cons firstKey rest =>
      rw [hfil] at h
      simp only at h
      have hmemf : firstKey ∈ keys.filter (fun k => decide (0 < c k)) := by
        rw [hfil]; exact List.mem_cons_self _ _
      have hmem : firstKey ∈ keys := (List.mem_filter.mp hmemf).1
      have hpos : 0 < c firstKey := by
        have := (List.mem_filter.mp hmemf).2
        simpa using this
      cases htrip : (if 3 ≤ c firstKey then
          checkStandard keys fuel (updateCount c firstKey (c firstKey - 3)) (m - 1)
        else false) with
      | true =>
        have h3 : 3 ≤ c firstKey := by
          by_contra h3
          rw [if_neg h3] at htrip
          cases htrip
        rw [if_pos h3] at htrip
        set c1 := updateCount c firstKey (c firstKey - 3) with hc1
        have hle1 : ∀ j, c1 j ≤ c j :=
          updateCount_le_pointwise c firstKey (c firstKey - 3) (by omega)
        obtain ⟨n', hm', hd'⟩ :=
          ih keys c1 (m - 1) hnd (supp_mono hle1 hsupp) htrip
        have hsplit : countsMs keys c = countsMs keys c1 +
            Multiset.replicate (c firstKey - (c firstKey - 3)) firstKey :=
          countsMs_update keys hnd c firstKey hmem _ (by omega)
        have h33 : c firstKey - (c firstKey - 3) = 3 := by omega
        refine ⟨n' + 1, by omega, ?_⟩
        rw [hsplit, h33, add_comm]
        exact GroupsDecomp.cons (Or.inl ⟨firstKey, rfl⟩) hd'
      | false =>
        rw [htrip] at h
        simp only [Bool.false_eq_true, if_false] at h
        by_cases hns : isNumericSuit firstKey.1 ∧ firstKey.2 ≤ 7
        · rw [if_pos hns] at h
          by_cases hcd : 0 < c (firstKey.1, firstKey.2 + 1) ∧
              0 < c (firstKey.1, firstKey.2 + 2)
          · rw [if_pos hcd] at h
            set k1 : Kind := (firstKey.1, firstKey.2) with hk1
            set k2 : Kind := (firstKey.1, firstKey.2 + 1) with hk2
            set k3 : Kind := (firstKey.1, firstKey.2 + 2) with hk3
            have hk1e : k1 = firstKey := rfl
            have hne12 : k2 ≠ k1 := by
              rw [hk1, hk2]
              intro hx
              have := congrArg Prod.snd hx
              simp at this
            have hne13 : k3 ≠ k1 := by
              rw [hk1, hk3]
              intro hx
              have := congrArg Prod.snd hx
              simp at this
            have hne23 : k3 ≠ k2 := by
              rw [hk2, hk3]
              intro hx
              have := congrArg Prod.snd hx
              simp at this
            have hmem2 : k2 ∈ keys := hsupp _ hcd.1
            have hmem3 : k3 ∈ keys := hsupp _ hcd.2
            set c1 := updateCount c k1 (c k1 - 1) with hc1
            set c2 := updateCount c1 k2 (c k2 - 1) with hc2
            set c3 := updateCount c2 k3 (c k3 - 1) with hc3
            have hc1k2 : c1 k2 = c k2 := by simp [hc1, updateCount, hne12]
            have hc1k3 : c1 k3 = c k3 := by simp [hc1, updateCount, hne13]
            have hc2k3 : c2 k3 = c k3 := by
              simp [hc2, updateCount, hne23, hc1k3]
            have hle1 : ∀ j, c1 j ≤ c j :=
              updateCount_le_pointwise c k1 (c k1 - 1) (by omega)
            have hle2 : ∀ j, c2 j ≤ c1 j :=
              updateCount_le_pointwise c1 k2 (c k2 - 1) (by omega)
            have hle3 : ∀ j, c3 j ≤ c2 j :=
              updateCount_le_pointwise c2 k3 (c k3 - 1) (by omega)
            have hle : ∀ j, c3 j ≤ c j :=
              fun j => le_trans (hle3 j) (le_trans (hle2 j) (hle1 j))
            obtain ⟨n', hm', hd'⟩ := ih keys c3 (m - 1) hnd (supp_mono hle hsupp) h
            have hs1 : countsMs keys c = countsMs keys c1 +
                Multiset.replicate (c k1 - (c k1 - 1)) k1 :=
              countsMs_update keys hnd c k1 (hk1e ▸ hmem) _ (by omega)
            have hs2 : countsMs keys c1 = countsMs keys c2 +
                Multiset.replicate (c1 k2 - (c k2 - 1)) k2 :=
              countsMs_update keys hnd c1 k2 hmem2 _ (by omega)
            have hs3 : countsMs keys c2 = countsMs keys c3 +
                Multiset.replicate (c2 k3 - (c k3 - 1)) k3 :=
              countsMs_update keys hnd c2 k3 hmem3 _ (by omega)
            have e1 : c k1 - (c k1 - 1) = 1 := by
              have : 0 < c k1 := hk1e ▸ hpos
              omega
            have e2 : c1 k2 - (c k2 - 1) = 1 := by
              rw [hc1k2]
              have := hcd.1
              omega
            have e3 : c2 k3 - (c k3 - 1) = 1 := by
              rw [hc2k3]
              have := hcd.2
              omega
            refine ⟨n' + 1, by omega, ?_⟩
            have hgroup : countsMs keys c =
                ({k1, k2, k3} : Multiset Kind) + countsMs keys c3 := by
              rw [hs1, hs2, hs3, e1, e2, e3]
              simp [Multiset.insert_eq_cons]
              rw [Multiset.ext]
              intro j
              simp [Multiset.count_cons, Multiset.count_singleton]
            rw [hgroup]
            exact GroupsDecomp.cons
              (Or.inr ⟨firstKey.1, firstKey.2, hns.1, rfl⟩) hd'
          · rw [if_neg hcd] at h
            cases h
        · rw [if_neg hns] at h
          cases h

theorem valid_mono {c c' : Kind → Nat}
    (hle : ∀ j, c' j ≤ c j) (hv : ∀ k, 0 < c k → validKind k = true) :
    ∀ k, 0 < c' k → validKind k = true :=
  fun k hk => hv k (lt_of_lt_of_le hk (hle k))

theorem validKind_numeric_bounds {s : Suit} {w : Nat}
    (hs : isNumericSuit s = true) (hv : validKind (s, w) = true) :
    1 ≤ w ∧ w ≤ 9 := by
  cases s
  · simp only [validKind] at hv
    exact of_decide_eq_true hv
  · simp only [validKind] at hv
    exact of_decide_eq_true hv
  · simp only [validKind] at hv
    exact of_decide_eq_true hv
  · exact absurd hs (by decide)
  · exact absurd hs (by decide)

/-- Completeness of the decomposition search: any spec-level
decomposition of the represented multiset is found, provided the fuel
exceeds the tile count, the key list is sorted and duplicate-free, and
the map is supported on valid kinds listed in `keys`. -/
theorem checkStandard_complete (fuel : Nat) :
    ∀ (keys : List Kind) (c : Kind → Nat) (n : Nat),
      keys.Nodup → keys.Sorted kindLE →
      (∀ k, 0 < c k → k ∈ keys) →
      (∀ k, 0 < c k → validKind k = true) →
      (keys.map c).sum < fuel →
      GroupsDecomp (countsMs keys c) n →
      checkStandard keys fuel c (n : Int) = true := by
  induction fuel with
  | zero =>
    intro keys c n _ _ _ _ hsum _
    omega
  | succ fuel ih =>
    intro keys c n hnd hsorted hsupp hvalid hsum hdec
    rw [checkStandard]
    cases hfil : keys.filter (fun k => decide (0 < c k)) with
    | nil =>
      have hall : ∀ k, c k = 0 := by
        intro k
        by_contra hk
        have hkpos : 0 < c k := Nat.pos_of_ne_zero hk
        have : k ∈ keys.filter (fun k => decide (0 < c k)) :=
          List.mem_filter.mpr ⟨hsupp k hkpos, by simpa⟩
        rw [hfil] at this
        cases this
      have hz : countsMs keys c = 0 := countsMs_eq_zero _ _ fun k _ => hall k
      rw [hz] at hdec
      have hcard := groupsDecomp_card hdec
      simp at hcard
      simp [hcard]
    | cons firstKey rest =>
      simp only
      have hmemf : firstKey ∈ keys.filter (fun k => decide (0 < c k)) := by
        rw [hfil]; exact List.mem_cons_self _ _
      have hmem : firstKey ∈ keys := (List.mem_filter.mp hmemf).1
      have hpos : 0 < c firstKey := by
        have := (List.mem_filter.mp hmemf).2
        simpa using this
      have posOf : ∀ j, 0 < Multiset.count j (countsMs keys c) → 0 < c j := by
        intro j hj
        rw [count_countsMs keys hnd] at hj
        by_cases hjk : j ∈ keys
        · simpa [hjk] using hj
        · simp [hjk] at hj
      have hminimal : ∀ j, 0 < c j → kindLE firstKey j := by
        intro j hj
        have hjf : j ∈ keys.filter (fun k => decide (0 < c k)) :=
          List.mem_filter.mpr ⟨hsupp j hj, by simpa⟩
        rw [hfil] at hjf
        rcases List.mem_cons.mp hjf with rfl | hjr
        · exact kindLE_refl _
        · have hps : (keys.filter (fun k => decide (0 < c k))).Pairwise kindLE :=
            hsorted.filter _
          rw [hfil] at hps
          exact (List.pairwise_cons.mp hps).1 j hjr
      have hkmemM : firstKey ∈ countsMs keys c := by
        rw [← Multiset.count_pos, count_countsMs keys hnd]
        simp [hmem, hpos]
      obtain ⟨g, M', n', hg, hkg, hM, hn, hd'⟩ :=
        groupsDecomp_extract hdec hkmemM
      subst hn
      cases htrip : (if 3 ≤ c firstKey then
          checkStandard keys fuel (updateCount c firstKey (c firstKey - 3))
            (((n' + 1 : Nat) : Int) - 1)
        else false) with
      | true => simp
      | false =>
        simp only [Bool.false_eq_true, if_false]
        rcases hg with htripg | hseqg
        · -- the extracted group is a triplet of `firstKey`; the triplet
          -- branch must then succeed, contradicting `htrip`.
          exfalso
          obtain ⟨k', hk'⟩ := htripg
          have hkf : k' = firstKey := by
            rw [hk'] at hkg
            exact (Multiset.eq_of_mem_replicate hkg).symm
          subst hkf
          rw [hk'] at hM
          have h3 : 3 ≤ c k' := by
            have := congrArg (Multiset.count k') hM
            rw [count_countsMs keys hnd, Multiset.count_add,
              Multiset.count_replicate] at this
            simp [hmem] at this
            omega
          set c1 := updateCount c k' (c k' - 3) with hc1
          have hle1 : ∀ j, c1 j ≤ c j :=
            updateCount_le_pointwise c k' (c k' - 3) (by omega)
          have hsplit : countsMs keys c = countsMs keys c1 +
              Multiset.replicate (c k' - (c k' - 3)) k' :=
            countsMs_update keys hnd c k' hmem _ (by omega)
          have h33 : c k' - (c k' - 3) = 3 := by omega
          rw [h33] at hsplit
          have hM' : countsMs keys c1 = M' := by
            have : countsMs keys c1 + Multiset.replicate 3 k' =
                M' + Multiset.replicate 3 k' := by
              rw [← hsplit, hM, add_comm]
            exact add_right_cancel this
          have hsum1 : (keys.map c1).sum < fuel := by
            have hlt := sum_map_updateCount_lt keys c k' (c k' - 3) hmem (by omega)
            rw [← hc1] at hlt
            omega
          have hrec : checkStandard keys fuel c1 (((n' + 1 : Nat) : Int) - 1)
              = true := by
            have harg : (((n' + 1 : Nat) : Int) - 1) = (n' : Int) := by
              push_cast
              ring
            rw [harg]
            exact ih keys c1 n' hnd hsorted (supp_mono hle1 hsupp)
              (valid_mono hle1 hvalid) hsum1 (hM' ▸ hd')
          rw [if_pos h3, hrec] at htrip
          cases htrip
        · -- the extracted group is a sequence; `firstKey` must be its
          -- lowest kind, and the sequence branch succeeds.
          obtain ⟨s, w, hnum, hgseq⟩ := hseqg
          have hposOf3 : 0 < c (s, w) ∧ 0 < c (s, w + 1) ∧ 0 < c (s, w + 2) := by
            refine ⟨?_, ?_, ?_⟩ <;>
            · apply posOf
              rw [hM, Multiset.count_add, hgseq]
              simp [Multiset.count_cons, Multiset.count_singleton,
                Multiset.insert_eq_cons]
              try omega
          have hfk : firstKey = (s, w) := by
            rw [hgseq] at hkg
            have hmem3 : firstKey = (s, w) ∨ firstKey = (s, w + 1) ∨
                firstKey = (s, w + 2) := by
              simpa [Multiset.insert_eq_cons] using hkg
            have hle : kindLE firstKey (s, w) := hminimal _ hposOf3.1
            rcases hmem3 with rfl | rfl | rfl
            · rfl
            · exfalso
              unfold kindLE at hle
              simp at hle
              try omega
            · exfalso
              unfold kindLE at hle
              simp at hle
              try omega
          have hw7 : w ≤ 7 := by
            have hv2 := hvalid _ hposOf3.2.2
            have := validKind_numeric_bounds hnum hv2
            omega
          have hns : isNumericSuit firstKey.1 ∧ firstKey.2 ≤ 7 := by
            rw [hfk]
            exact ⟨hnum, hw7⟩
          rw [if_pos hns]
          have hcd : 0 < c (firstKey.1, firstKey.2 + 1) ∧
              0 < c (firstKey.1, firstKey.2 + 2) := by
            rw [hfk]
            exact ⟨hposOf3.2.1, hposOf3.2.2⟩
          rw [if_pos hcd]
          -- identify the three keys and the updated map
          set k1 : Kind := (firstKey.1, firstKey.2) with hk1
          set k2 : Kind := (firstKey.1, firstKey.2 + 1) with hk2
          set k3 : Kind := (firstKey.1, firstKey.2 + 2) with hk3
          have hk1e : k1 = firstKey := rfl
          have hk1s : k1 = (s, w) := by rw [hk1, hfk]
          have hk2s : k2 = (s, w + 1) := by rw [hk2, hfk]
          have hk3s : k3 = (s, w + 2) := by rw [hk3, hfk]
          have hne12 : k2 ≠ k1 := by
            rw [hk1, hk2]
            intro hx
            have := congrArg Prod.snd hx
            simp at this
          have hne13 : k3 ≠ k1 := by
            rw [hk1, hk3]
            intro hx
            have := congrArg Prod.snd hx
            simp at this
          have hne23 : k3 ≠ k2 := by
            rw [hk2, hk3]
            intro hx
            have := congrArg Prod.snd hx
            simp at this
          have hp1 : 0 < c k1 := by rw [hk1s]; exact hposOf3.1
          have hp2 : 0 < c k2 := by rw [hk2s]; exact hposOf3.2.1
          have hp3 : 0 < c k3 := by rw [hk3s]; exact hposOf3.2.2
          have hmem2 : k2 ∈ keys := hsupp _ hp2
          have hmem3k : k3 ∈ keys := hsupp _ hp3
          set c1 := updateCount c k1 (c k1 - 1) with hc1
          set c2 := updateCount c1 k2 (c k2 - 1) with hc2
          set c3 := updateCount c2 k3 (c k3 - 1) with hc3
          have hc1k2 : c1 k2 = c k2 := by simp [hc1, updateCount, hne12]
          have hc1k3 : c1 k3 = c k3 := by simp [hc1, updateCount, hne13]
          have hc2k3 : c2 k3 = c k3 := by simp [hc2, updateCount, hne23, hc1k3]
          have hle1 : ∀ j, c1 j ≤ c j :=
            updateCount_le_pointwise c k1 (c k1 - 1) (by omega)
          have hle2 : ∀ j, c2 j ≤ c1 j :=
            updateCount_le_pointwise c1 k2 (c k2 - 1) (by omega)
          have hle3 : ∀ j, c3 j ≤ c2 j :=
            updateCount_le_pointwise c2 k3 (c k3 - 1) (by omega)
          have hle : ∀ j, c3 j ≤ c j :=
            fun j => le_trans (hle3 j) (le_trans (hle2 j) (hle1 j))
          have hs1 : countsMs keys c = countsMs keys c1 +
              Multiset.replicate (c k1 - (c k1 - 1)) k1 :=
            countsMs_update keys hnd c k1 (hk1e ▸ hmem) _ (by omega)
          have hs2 : countsMs keys c1 = countsMs keys c2 +
              Multiset.replicate (c1 k2 - (c k2 - 1)) k2 :=
            countsMs_update keys hnd c1 k2 hmem2 _ (by omega)
          have hs3 : countsMs keys c2 = countsMs keys c3 +
              Multiset.replicate (c2 k3 - (c k3 - 1)) k3 :=
            countsMs_update keys hnd c2 k3 hmem3k _ (by omega)
          have e1 : c k1 - (c k1 - 1) = 1 := by omega
          have e2 : c1 k2 - (c k2 - 1) = 1 := by rw [hc1k2]; omega
          have e3 : c2 k3 - (c k3 - 1) = 1 := by rw [hc2k3]; omega
          have hgroup : countsMs keys c = countsMs keys c3 + g := by
            rw [hs1, hs2, hs3, e1, e2, e3, hgseq, hk1s, hk2s, hk3s]
            rw [Multiset.ext]
            intro j
            simp [Multiset.count_cons, Multiset.count_singleton,
              Multiset.insert_eq_cons, Multiset.count_replicate]
            try omega
          have hM' : countsMs keys c3 = M' := by
            have : countsMs keys c3 + g = M' + g := by
              rw [← hgroup, hM, add_comm]
            exact add_right_cancel this
          have hsum1 : (keys.map c3).sum < fuel := by
            have hlt1 :=
              sum_map_updateCount_lt keys c k1 (c k1 - 1) (hk1e ▸ hmem) (by omega)
            have hlt2 := sum_map_updateCount_le keys c1 k2 (c k2 - 1)
              (by rw [hc1k2]; omega)
            have hlt3 := sum_map_updateCount_le keys c2 k3 (c k3 - 1)
              (by rw [hc2k3]; omega)
            rw [← hc1] at hlt1
            rw [← hc2] at hlt2
            rw [← hc3] at hlt3
            omega
          have harg : (((n' + 1 : Nat) : Int) - 1) = (n' : Int) := by
            push_cast
            ring
          rw [harg]
          exact ih keys c3 n' hnd hsorted (supp_mono hle hsupp)
            (valid_mono hle hvalid) hsum1 (hM' ▸ hd')

/-- `canHu` agrees with the spec's winning-shape predicate on every hand
of valid tiles, for any melds. -/
theorem canHu_iff_specWin (hand : List Tile) (melds : List Meld)
    (hv : ∀ t ∈ hand, validKind (tileKind t) = true) :
    canHu hand melds = true ↔
      (hand.length % 3 = 2 ∧
        SpecWin ((hand.map tileKind : List Kind) : Multiset Kind)) := by
  by_cases hlen : hand.length % 3 = 2
  · have hlen2 : 2 ≤ hand.length := by omega
    have hnd := nodup_handKeys hand
    have hsupp : ∀ j, 0 < tileCounts hand j → j ∈ handKeys hand :=
      fun j hj => (mem_handKeys hand j).mpr hj
    have hvalid : ∀ j, 0 < tileCounts hand j → validKind j = true := by
      intro j hj
      obtain ⟨t, ht, hdec⟩ := List.countP_pos_iff.mp hj
      have := of_decide_eq_true hdec
      exact this ▸ hv t ht
    have hcanHu : canHu hand melds = (handKeys hand).any fun k =>
        if 2 ≤ tileCounts hand k then
          checkStandard (handKeys hand) hand.length
            (updateCount (tileCounts hand) k (tileCounts hand k - 2))
            (((hand.length : Int) - 2) / 3)
        else false := by
      simp [canHu, hlen]
    rw [hcanHu]
    constructor
    · intro h
      rw [List.any_eq_true] at h
      obtain ⟨k, hkmem, hk⟩ := h
      have h2 : 2 ≤ tileCounts hand k := by
        by_contra h2
        rw [if_neg h2] at hk
        cases hk
      rw [if_pos h2] at hk
      set c1 := updateCount (tileCounts hand) k (tileCounts hand k - 2) with hc1
      have hle : ∀ j, c1 j ≤ tileCounts hand j :=
        updateCount_le_pointwise _ _ _ (by omega)
      obtain ⟨n, hmn, hdec⟩ := checkStandard_sound hand.length (handKeys hand)
        c1 _ hnd (supp_mono hle hsupp) hk
      have hsplit := countsMs_update (handKeys hand) hnd (tileCounts hand) k
        (hsupp k (by omega)) (tileCounts hand k - 2) (by omega)
      have e2 : tileCounts hand k - (tileCounts hand k - 2) = 2 := by omega
      rw [e2, ← hc1] at hsplit
      refine ⟨hlen, k, countsMs (handKeys hand) c1, ?_, ?_⟩
      · rw [← countsMs_handKeys hand, hsplit, add_comm]
      · have hcard :
            Multiset.card ((hand.map tileKind : List Kind) : Multiset Kind) =
              hand.length := by simp
        have hn : (hand.length - 2) / 3 = n := by omega
        rw [hcard, hn]
        exact hdec
    · rintro ⟨-, p, rest, hsplit, hdec⟩
      rw [List.any_eq_true]
      have hp2 : 2 ≤ tileCounts hand p := by
        have hcnt := congrArg (Multiset.count p) hsplit
        rw [← tileCounts_eq_count, Multiset.count_add,
          Multiset.count_replicate] at hcnt
        simp at hcnt
        omega
      have hpmem : p ∈ handKeys hand := hsupp p (by omega)
      refine ⟨p, hpmem, ?_⟩
      rw [if_pos hp2]
      set c1 := updateCount (tileCounts hand) p (tileCounts hand p - 2) with hc1
      have hle : ∀ j, c1 j ≤ tileCounts hand j :=
        updateCount_le_pointwise _ _ _ (by omega)
      have hsplit2 := countsMs_update (handKeys hand) hnd (tileCounts hand) p
        hpmem (tileCounts hand p - 2) (by omega)
      have e2 : tileCounts hand p - (tileCounts hand p - 2) = 2 := by omega
      rw [e2, ← hc1] at hsplit2
      have hrest : countsMs (handKeys hand) c1 = rest := by
        have : Multiset.replicate 2 p + countsMs (handKeys hand) c1 =
            Multiset.replicate 2 p + rest := by
          rw [← hsplit, ← countsMs_handKeys hand, hsplit2, add_comm]
        exact add_left_cancel this
      have hsum : ((handKeys hand).map c1).sum < hand.length := by
        have hc : ((handKeys hand).map c1).sum =
            Multiset.card (countsMs (handKeys hand) c1) :=
          (card_countsMs _ _).symm
        rw [hc, hrest]
        have hcards := congrArg Multiset.card hsplit
        rw [Multiset.card_add, Multiset.card_replicate] at hcards
        simp at hcards
        omega
      have hcard :
          Multiset.card ((hand.map tileKind : List Kind) : Multiset Kind) =
            hand.length := by simp
      rw [hcard] at hdec
      have harg : ((hand.length : Int) - 2) / 3 =
          (((hand.length - 2) / 3 : Nat) : Int) := by omega
      rw [harg]
      exact checkStandard_complete hand.length (handKeys hand) c1
        ((hand.length - 2) / 3) hnd (sorted_handKeys hand)
        (supp_mono hle hsupp) (valid_mono hle hvalid) hsum (hrest ▸ hdec)
  · simp [canHu, hlen]

/-! ### Purity of `canHu` -/

instance : IsAntisymm Kind kindLE := ⟨fun _ _ => kindLE_antisymm⟩

theorem tileCounts_perm {hand1 hand2 : List Tile} (hperm : hand1.Perm hand2) :
    tileCounts hand1 = tileCounts hand2 := by
  funext j
  exact hperm.countP_eq _

theorem handKeys_perm {hand1 hand2 : List Tile} (hperm : hand1.Perm hand2) :
    handKeys hand1 = handKeys hand2 := by
  apply List.eq_of_perm_of_sorted ?_ (sorted_handKeys hand1) (sorted_handKeys hand2)
  unfold handKeys
  exact ((List.perm_insertionSort kindLE _).trans
    ((hperm.map tileKind).dedup)).trans
    (List.perm_insertionSort kindLE _).symm

/-- `canHu` depends only on the multiset of kinds in the hand, and not
on the melds argument at all. -/
theorem canHu_perm (hand1 hand2 : List Tile) (melds1 melds2 : List Meld)
    (hperm : hand1.Perm hand2) :
    canHu hand1 melds1 = canHu hand2 melds2 := by
  have h1 : hand1.length = hand2.length := hperm.length_eq
  have h2 : tileCounts hand1 = tileCounts hand2 := tileCounts_perm hperm
  have h3 : handKeys hand1 = handKeys hand2 := handKeys_perm hperm
  simp only [canHu, h1, h2, h3]

/-! ### Concrete example hands -/

/-- Shorthand for building a fixture tile. -/
def mkTile (s : Suit) (v : Nat) (i : Nat) : Tile :=
  { id := i, suit := s, value := v, name := tileName (s, v) }

/-- Four distinct numeric groups plus a pair of Wan-5 (14 tiles). -/
def exWinHand : List Tile :=
  [mkTile Suit.Wan 1 200, mkTile Suit.Wan 2 201, mkTile Suit.Wan 3 202,
   mkTile Suit.Tiao 1 203, mkTile Suit.Tiao 2 204, mkTile Suit.Tiao 3 205,
   mkTile Suit.Tong 1 206, mkTile Suit.Tong 2 207, mkTile Suit.Tong 3 208,
   mkTile Suit.Tong 7 209, mkTile Suit.Tong 8 210, mkTile Suit.Tong 9 211,
   mkTile Suit.Wan 5 212, mkTile Suit.Wan 5 213]

/-- The same four groups with the pair replaced by one isolated Dragon
tile (13 tiles). -/
def exLoseHand : List Tile :=
  [mkTile Suit.Wan 1 200, mkTile Suit.Wan 2 201, mkTile Suit.Wan 3 202,
   mkTile Suit.Tiao 1 203, mkTile Suit.Tiao 2 204, mkTile Suit.Tiao 3 205,
   mkTile Suit.Tong 1 206, mkTile Suit.Tong 2 207, mkTile Suit.Tong 3 208,
   mkTile Suit.Tong 7 209, mkTile Suit.Tong 8 210, mkTile Suit.Tong 9 211,
   mkTile Suit.Dragon 1 212]

/-! ### Deck facts -/

theorem coe_flatMap_replicate (l : List Kind) :
    ((l.flatMap fun k => List.replicate 4 k : List Kind) : Multiset Kind) =
      countsMs l (fun _ => 4) := by
  induction l with
  | nil => simp [countsMs]
  | cons a t ih =>
    rw [List.flatMap_cons]
    have hsplit : ((List.replicate 4 a ++ t.flatMap fun k => List.replicate 4 k :
        List Kind) : Multiset Kind) = Multiset.replicate 4 a +
          ((t.flatMap fun k => List.replicate 4 k : List Kind) : Multiset Kind) := by
      simp
    rw [hsplit, ih]
    simp [countsMs]

theorem mem_deckKindOrder (k : Kind) :
    k ∈ deckKindOrder ↔ validKind k = true := by
  rcases k with ⟨s, v⟩
  cases s <;> simp [deckKindOrder, SUITS, validKind] <;>
    (constructor
     · rintro ⟨a, ha, rfl⟩
       omega
     · intro hh
       exact ⟨v - 1, by omega, by omega⟩)

set_option maxRecDepth 8000 in
theorem createDeck_kinds :
    createDeck.map tileKind = deckKindOrder.flatMap fun k => List.replicate 4 k := by
  decide

set_option maxRecDepth 8000 in
theorem createDeck_ids : createDeck.map Tile.id = List.range 136 := by
  decide

theorem deckKindOrder_nodup : deckKindOrder.Nodup := by decide

/-- Kind multiplicities of the constructed deck. -/
theorem tileCounts_createDeck (k : Kind) :
    tileCounts createDeck k = if validKind k then 4 else 0 := by
  rw [tileCounts_eq_count, createDeck_kinds, coe_flatMap_replicate,
    count_countsMs _ deckKindOrder_nodup]
  by_cases h : validKind k = true
  · rw [if_pos ((mem_deckKindOrder k).mpr h), if_pos h]
  · rw [if_neg (fun hm => h ((mem_deckKindOrder k).mp hm)), if_neg h]

/-! ### Claim theorems -/

/-- Claim C1: `canHu` (the source's `canWin`) returns true iff the
hand's tile count is 2 mod 3 and the multiset of (suit,value) kinds
splits into one pair plus `(n-2)/3` groups, each a triplet or a run of
three consecutive values in a numeric suit; in particular the concrete
14-tile hand of four distinct numeric groups plus a pair of Wan-5 wins,
and replacing the pair by a single isolated Dragon tile loses. -/
theorem claim_C1 :
    (∀ (hand : List Tile) (melds : List Meld),
      (∀ t ∈ hand, validKind (tileKind t) = true) →
      (canHu hand melds = true ↔
        (hand.length % 3 = 2 ∧
          SpecWin ((hand.map tileKind : List Kind) : Multiset Kind)))) ∧
    canHu exWinHand [] = true ∧ canHu exLoseHand [] = false :=
  ⟨canHu_iff_specWin, by decide, by decide⟩

/-- Witness for C1 at the concrete winning hand. -/
theorem claim_C1_witness :
    (∀ t ∈ exWinHand, validKind (tileKind t) = true) ∧
    (canHu exWinHand [] = true ↔
      (exWinHand.length % 3 = 2 ∧
        SpecWin ((exWinHand.map tileKind : List Kind) : Multiset Kind))) :=
  ⟨by decide, claim_C1.1 exWinHand [] (by decide)⟩

/-- Claim C7: `createDeck` returns 136 tiles, exactly 4 copies of every
valid (suit,value) kind and none of any other kind, each tile with a
globally unique id. -/
theorem claim_C7 :
    createDeck.length = 136 ∧
    (∀ k : Kind, tileCounts createDeck k = if validKind k then 4 else 0) ∧
    (createDeck.map Tile.id).Nodup := by
  refine ⟨?_, tileCounts_createDeck, ?_⟩
  · have := congrArg List.length createDeck_ids
    simpa using this
  · rw [createDeck_ids]
    exact List.nodup_range 136

/-- Claim C8: `canHu` is a pure function of the multiset of kinds in
the hand — invariant under permutation of the hand, and independent of
the melds argument. -/
theorem claim_C8 :
    ∀ (hand1 hand2 : List Tile) (melds1 melds2 : List Meld),
      hand1.Perm hand2 → canHu hand1 melds1 = canHu hand2 melds2 :=
  canHu_perm

/-- Witness for C8: reversing the concrete winning hand (with different
melds) does not change the verdict. -/
theorem claim_C8_witness :
    canHu exWinHand [] = canHu exWinHand.reverse
      [{ type := "碰", tiles := [], fromPlayer := none }] :=
  claim_C8 exWinHand exWinHand.reverse _ _ (List.reverse_perm exWinHand).symm

/-! ### Characterisation of the claim set (`checkResponseActions`) -/

theorem mem_ite_singleton {c : Prop} [Decidable c] {x a : String} :
    a ∈ (if c then [x] else []) ↔ (c ∧ a = x) := by
  split_ifs with h <;> simp [h]

theorem isSameTile_eq_kind (a b : Tile) :
    isSameTile a b = decide (tileKind a = tileKind b) := by
  by_cases h1 : a.suit = b.suit <;> by_cases h2 : a.value = b.value <;>
    simp [isSameTile, tileKind, h1, h2, Prod.ext_iff]

theorem filter_isSameTile_length (l : List Tile) (tile : Tile) :
    (l.filter fun t => isSameTile t tile).length = tileCounts l (tileKind tile) := by
  rw [← List.countP_eq_length_filter]
  unfold tileCounts
  have hfn : (fun t => isSameTile t tile) =
      fun t => decide (tileKind t = tileKind tile) :=
    funext fun t => isSameTile_eq_kind t tile
  rw [hfn]

theorem hasKind_iff (s : Suit) (w : Int) (l : List Tile) :
    hasKind s w l = true ↔ ∃ t ∈ l, t.suit = s ∧ (t.value : Int) = w := by
  simp [hasKind, List.any_eq_true]

/-- Membership in the computed claim set: an entry carrying action `a`
for seat `p` exists iff `p` is not the discarder and `a` is among that
seat's options. -/
theorem mem_checkResponseActions (players : Fin 4 → PlayerState) (tile : Tile)
    (fromP : Fin 4) (hid : ∀ i, (players i).id = i) (p : Fin 4) (a : String) :
    (∃ e ∈ checkResponseActions players tile fromP,
      e.player = p ∧ a ∈ e.actions) ↔
    (p ≠ fromP ∧ a ∈ responseOptionsFor players tile fromP p) := by
  constructor
  · rintro ⟨e, he, hep, ha⟩
    obtain ⟨i, hi, hfi⟩ := List.mem_filterMap.mp he
    dsimp only [checkResponseActions] at hfi
    by_cases h1 : (players i).id = fromP
    · rw [if_pos h1] at hfi
      cases hfi
    · rw [if_neg h1] at hfi
      by_cases h2 : (responseOptionsFor players tile fromP i).isEmpty
      · rw [if_pos h2] at hfi
        cases hfi
      · rw [if_neg h2] at hfi
        have he2 : e = ⟨(players i).id, responseOptionsFor players tile fromP i⟩ :=
          (Option.some.inj hfi).symm
        have hip : i = p := by
          have := hep
          rw [he2] at this
          simpa [hid i] using this
        subst hip
        refine ⟨?_, ?_⟩
        · intro hpf
          exact h1 (by rw [hid]; exact hpf)
        · have := ha
          rw [he2] at this
          exact this
  · rintro ⟨hpf, ha⟩
    refine ⟨⟨(players p).id, responseOptionsFor players tile fromP p⟩, ?_, by
      simp [hid p], ha⟩
    apply List.mem_filterMap.mpr
    refine ⟨p, List.mem_finRange p, ?_⟩
    dsimp only [checkResponseActions]
    rw [if_neg (by rw [hid]; exact hpf)]
    rw [if_neg (fun hE => List.ne_nil_of_mem ha (List.isEmpty_iff.mp hE))]

theorem hu_mem_responseOptions (players : Fin 4 → PlayerState) (tile : Tile)
    (fromP : Fin 4) (i : Fin 4) :
    "胡" ∈ responseOptionsFor players tile fromP i ↔
      canHu ((players i).hand ++ [tile]) (players i).melds = true := by
  unfold responseOptionsFor
  simp only [List.mem_append, mem_ite_singleton]
  simp
  try tauto

theorem pung_mem_responseOptions (players : Fin 4 → PlayerState) (tile : Tile)
    (fromP : Fin 4) (i : Fin 4) :
    "碰" ∈ responseOptionsFor players tile fromP i ↔
      2 ≤ ((players i).hand.filter fun t => isSameTile t tile).length := by
  unfold responseOptionsFor
  simp only [List.mem_append, mem_ite_singleton]
  simp
  try tauto

theorem kong_mem_responseOptions (players : Fin 4 → PlayerState) (tile : Tile)
    (fromP : Fin 4) (i : Fin 4) :
    "杠" ∈ responseOptionsFor players tile fromP i ↔
      ((players i).hand.filter fun t => isSameTile t tile).length = 3 := by
  unfold responseOptionsFor
  simp only [List.mem_append, mem_ite_singleton]
  simp
  try tauto

theorem chow_mem_responseOptions (players : Fin 4 → PlayerState) (tile : Tile)
    (fromP : Fin 4) (i : Fin 4) :
    "吃" ∈ responseOptionsFor players tile fromP i ↔
      ((fromP + 1 = (players i).id ∧ isNumericSuit tile.suit = true) ∧
        ((hasKind tile.suit ((tile.value : Int) - 2) (players i).hand = true ∧
          hasKind tile.suit ((tile.value : Int) - 1) (players i).hand = true) ∨
         (hasKind tile.suit ((tile.value : Int) - 1) (players i).hand = true ∧
          hasKind tile.suit ((tile.value : Int) + 1) (players i).hand = true) ∨
         (hasKind tile.suit ((tile.value : Int) + 1) (players i).hand = true ∧
          hasKind tile.suit ((tile.value : Int) + 2) (players i).hand = true))) := by
  unfold responseOptionsFor
  simp only [List.mem_append, mem_ite_singleton]
  simp
  try tauto

theorem entries_checkResponseActions (players : Fin 4 → PlayerState)
    (tile : Tile) (fromP : Fin 4) :
    ∀ e ∈ checkResponseActions players tile fromP,
      e.player ≠ fromP ∧ e.actions ≠ [] := by
  intro e he
  obtain ⟨i, hi, hfi⟩ := List.mem_filterMap.mp he
  dsimp only [checkResponseActions] at hfi
  by_cases h1 : (players i).id = fromP
  · rw [if_pos h1] at hfi
    cases hfi
  · rw [if_neg h1] at hfi
    by_cases h2 : (responseOptionsFor players tile fromP i).isEmpty
    · rw [if_pos h2] at hfi
      cases hfi
    · rw [if_neg h2] at hfi
      have he2 : e = ⟨(players i).id, responseOptionsFor players tile fromP i⟩ :=
        (Option.some.inj hfi).symm
      subst he2
      refine ⟨h1, ?_⟩
      intro hnil
      have hnil2 : responseOptionsFor players tile fromP i = [] := hnil
      exact h2 (by simp [hnil2])

/-- A seat holds some tile of suit `s` and (integer) value `w`. -/
def holdsValue (p : PlayerState) (s : Suit) (w : Int) : Prop :=
  ∃ t ∈ p.hand, t.suit = s ∧ (t.value : Int) = w

/-- The specification of the claim set for a discard of `tile` by seat
`fromP`: entries only for other seats and never empty; Win offered iff
the hand plus the discard can win; Pung iff the seat holds at least two
tiles of the discarded kind; Kong iff exactly three; Chow only for the
next seat clockwise, only for numeric suits, and only with one of the
three adjacent pairs in hand. -/
def ResponseSpec (players : Fin 4 → PlayerState) (tile : Tile)
    (fromP : Fin 4) : Prop :=
  (∀ e ∈ checkResponseActions players tile fromP,
    e.player ≠ fromP ∧ e.actions ≠ []) ∧
  ∀ p : Fin 4, p ≠ fromP →
    ((∃ e ∈ checkResponseActions players tile fromP,
        e.player = p ∧ "胡" ∈ e.actions) ↔
      canHu ((players p).hand ++ [tile]) (players p).melds = true) ∧
    ((∃ e ∈ checkResponseActions players tile fromP,
        e.player = p ∧ "碰" ∈ e.actions) ↔
      2 ≤ tileCounts (players p).hand (tileKind tile)) ∧
    ((∃ e ∈ checkResponseActions players tile fromP,
        e.player = p ∧ "杠" ∈ e.actions) ↔
      tileCounts (players p).hand (tileKind tile) = 3) ∧
    ((∃ e ∈ checkResponseActions players tile fromP,
        e.player = p ∧ "吃" ∈ e.actions) ↔
      (p = fromP + 1 ∧ isNumericSuit tile.suit = true ∧
        ((holdsValue (players p) tile.suit ((tile.value : Int) - 2) ∧
          holdsValue (players p) tile.suit ((tile.value : Int) - 1)) ∨
         (holdsValue (players p) tile.suit ((tile.value : Int) - 1) ∧
          holdsValue (players p) tile.suit ((tile.value : Int) + 1)) ∨
         (holdsValue (players p) tile.suit ((tile.value : Int) + 1) ∧
          holdsValue (players p) tile.suit ((tile.value : Int) + 2)))))

/-- Claim C6: for every discard the computed claim set offers Win iff
`canHu` holds on hand-plus-discard, Pung iff the seat holds at least two
tiles of the kind, Kong iff exactly three, and Chow only to the next
seat clockwise for numeric suits with an adjacent pair in hand; seats
with no eligible action are omitted and the discarder never appears. -/
theorem claim_C6 :
    ∀ (players : Fin 4 → PlayerState) (tile : Tile) (fromP : Fin 4),
      (∀ i, (players i).id = i) → ResponseSpec players tile fromP := by
  intro players tile fromP hid
  refine ⟨entries_checkResponseActions players tile fromP, ?_⟩
  intro p hp
  refine ⟨?_, ?_, ?_, ?_⟩
  · rw [mem_checkResponseActions players tile fromP hid p,
      hu_mem_responseOptions]
    simp [hp]
  · rw [mem_checkResponseActions players tile fromP hid p,
      pung_mem_responseOptions, filter_isSameTile_length]
    simp [hp]
  · rw [mem_checkResponseActions players tile fromP hid p,
      kong_mem_responseOptions, filter_isSameTile_length]
    simp [hp]
  · rw [mem_checkResponseActions players tile fromP hid p,
      chow_mem_responseOptions]
    have hseat : (fromP + 1 = (players p).id) ↔ (p = fromP + 1) := by
      rw [hid p]
      exact eq_comm
    rw [hseat, hasKind_iff, hasKind_iff, hasKind_iff, hasKind_iff]
    unfold holdsValue
    simp [hp, and_assoc]

/-- Witness for C6 at the freshly initialised seats and a concrete
discard. -/
theorem claim_C6_witness :
    ResponseSpec initPlayers (mkTile Suit.Wan 5 300) 0 :=
  claim_C6 initPlayers (mkTile Suit.Wan 5 300) 0 (by decide)

/-! ### Removal lemmas for claim resolution -/

theorem findRemove_spec (p : Tile → Bool) :
    ∀ (l : List Tile) (t : Tile) (r : List Tile),
      findRemove p l = some (t, r) →
      p t = true ∧ l.Perm (t :: r) ∧ l.length = r.length + 1 := by
  intro l
  induction l with
  | nil => intro t r h; cases h
  | cons a ts ih =>
    intro t r h
    unfold findRemove at h
    by_cases hp : p a
    · rw [if_pos hp] at h
      obtain ⟨rfl, rfl⟩ : a = t ∧ ts = r := by
        have := Option.some.inj h
        exact ⟨congrArg Prod.fst this, congrArg Prod.snd this⟩
      exact ⟨hp, List.Perm.refl _, rfl⟩
    · rw [if_neg hp] at h
      cases ho : findRemove p ts with
      | none => rw [ho] at h; cases h
      | some pr =>
        rw [ho] at h
        obtain ⟨rfl, rfl⟩ : pr.1 = t ∧ a :: pr.2 = r := by
          have := Option.some.inj h
          exact ⟨congrArg Prod.fst this, congrArg Prod.snd this⟩
        obtain ⟨hpt, hperm, hlen⟩ := ih pr.1 pr.2 ho
        refine ⟨hpt, ?_, by simp [hlen]⟩
        exact (hperm.cons a).trans (List.Perm.swap pr.1 a pr.2)

theorem findRemove_of_any (p : Tile → Bool) :
    ∀ (l : List Tile), l.any p = true → ∃ t r, findRemove p l = some (t, r) := by
  intro l
  induction l with
  | nil => intro h; cases h
  | cons a ts ih =>
    intro h
    unfold findRemove
    by_cases hp : p a
    · exact ⟨a, ts, by rw [if_pos hp]⟩
    · have hts : ts.any p = true := by
        rcases List.any_eq_true.mp h with ⟨x, hx, hpx⟩
        rcases List.mem_cons.mp hx with rfl | hx2
        · exact absurd hpx hp
        · exact List.any_eq_true.mpr ⟨x, hx2, hpx⟩
      obtain ⟨t, r, hfr⟩ := ih hts
      exact ⟨t, a :: r, by rw [if_neg hp, hfr]; rfl⟩

theorem extractMatches_perm (p : Tile → Bool) :
    ∀ (n : Nat) (l : List Tile),
      ((extractMatches p n l).1 ++ (extractMatches p n l).2).Perm l := by
  intro n l
  induction l generalizing n with
  | nil => cases n <;> simp [extractMatches]
  | cons t ts ih =>
    cases n with
    | zero => simp [extractMatches]
    | succ n =>
      by_cases hp : p t
      · simp only [extractMatches, hp, if_true]
        exact (ih n).cons t
      · simp only [extractMatches, hp, Bool.false_eq_true, if_false]
        exact List.perm_middle.trans ((ih (n + 1)).cons t)

theorem extractMatches_removed_length (p : Tile → Bool) :
    ∀ (n : Nat) (l : List Tile),
      (extractMatches p n l).1.length = min n (l.countP p) := by
  intro n l
  induction l generalizing n with
  | nil => cases n <;> simp [extractMatches]
  | cons t ts ih =>
    cases n with
    | zero => simp [extractMatches]
    | succ n =>
      by_cases hp : p t
      · have he : (extractMatches p (n + 1) (t :: ts)).1 =
            t :: (extractMatches p n ts).1 := by
          simp [extractMatches, hp]
        rw [he, List.length_cons, ih n, List.countP_cons]
        simp [hp]
        omega
      · have he : (extractMatches p (n + 1) (t :: ts)).1 =
            (extractMatches p (n + 1) ts).1 := by
          simp [extractMatches, hp]
        rw [he, ih (n + 1), List.countP_cons]
        simp [hp]

theorem extractMatches_matches (p : Tile → Bool) :
    ∀ (n : Nat) (l : List Tile) (t : Tile),
      t ∈ (extractMatches p n l).1 → p t = true := by
  intro n l
  induction l generalizing n with
  | nil =>
    intro t ht
    cases n <;> simp [extractMatches] at ht
  | cons a ts ih =>
    intro t ht
    cases n with
    | zero => simp [extractMatches] at ht
    | succ n =>
      by_cases hp : p a
      · have he : (extractMatches p (n + 1) (a :: ts)).1 =
            a :: (extractMatches p n ts).1 := by
          simp [extractMatches, hp]
        rw [he] at ht
        rcases List.mem_cons.mp ht with rfl | h2
        · exact hp
        · exact ih n t h2
      · have he : (extractMatches p (n + 1) (a :: ts)).1 =
            (extractMatches p (n + 1) ts).1 := by
          simp [extractMatches, hp]
        rw [he] at ht
        exact ih (n + 1) t ht

theorem updPlayer_same (ps : Fin 4 → PlayerState) (i : Fin 4) (p : PlayerState) :
    updPlayer ps i p i = p := by simp [updPlayer]

theorem updPlayer_other (ps : Fin 4 → PlayerState) (i : Fin 4) (p : PlayerState)
    (j : Fin 4) (h : j ≠ i) : updPlayer ps i p j = ps j := by
  simp [updPlayer, h]

theorem sortHand_perm (l : List Tile) : (sortHand l).Perm l :=
  List.perm_insertionSort tileLE l

theorem sortHand_length (l : List Tile) : (sortHand l).length = l.length :=
  (sortHand_perm l).length_eq

theorem removeFirstKind_found (s : Suit) (w : Int) (l : List Tile)
    (h : hasKind s w l = true) :
    ∃ t r, removeFirstKind s w l = (some t, r) ∧ t.suit = s ∧
      (t.value : Int) = w ∧ l.Perm (t :: r) ∧ l.length = r.length + 1 := by
  obtain ⟨t, r, hfr⟩ :=
    findRemove_of_any (fun t => decide (t.suit = s ∧ (t.value : Int) = w)) l h
  obtain ⟨hpt, hperm, hlen⟩ := findRemove_spec _ l t r hfr
  have hc := of_decide_eq_true hpt
  refine ⟨t, r, ?_, hc.1, hc.2, hperm, hlen⟩
  unfold removeFirstKind
  rw [hfr]

theorem hasKind_preserved (s : Suit) {w w' : Int} (hne : w' ≠ w)
    {t : Tile} {l r : List Tile} (hperm : l.Perm (t :: r))
    (ht : (t.value : Int) = w)
    (h : hasKind s w' l = true) : hasKind s w' r = true := by
  rcases List.any_eq_true.mp h with ⟨x, hx, hpx⟩
  have hx2 : x ∈ t :: r := hperm.mem_iff.mp hx
  rcases List.mem_cons.mp hx2 with rfl | hx3
  · have hcx := of_decide_eq_true hpx
    exact absurd (by rw [← hcx.2, ht]) (Ne.symm hne)
  · exact List.any_eq_true.mpr ⟨x, hx3, hpx⟩

/-- If one of the three adjacent pairs is in hand, the chosen pair of
values is present in the hand and its two values differ. -/
theorem chowPick_present (tile : Tile) (hand : List Tile)
    (hone :
      (hasKind tile.suit ((tile.value : Int) - 2) hand = true ∧
        hasKind tile.suit ((tile.value : Int) - 1) hand = true) ∨
      (hasKind tile.suit ((tile.value : Int) - 1) hand = true ∧
        hasKind tile.suit ((tile.value : Int) + 1) hand = true) ∨
      (hasKind tile.suit ((tile.value : Int) + 1) hand = true ∧
        hasKind tile.suit ((tile.value : Int) + 2) hand = true)) :
    hasKind tile.suit (chowPick tile hand).1 hand = true ∧
    hasKind tile.suit (chowPick tile hand).2 hand = true ∧
    (chowPick tile hand).2 ≠ (chowPick tile hand).1 := by
  unfold chowPick
  by_cases h1 : (hasKind tile.suit ((tile.value : Int) - 2) hand &&
      hasKind tile.suit ((tile.value : Int) - 1) hand) = true
  · rw [if_pos h1]
    have := Bool.and_eq_true_iff.mp h1
    exact ⟨this.1, this.2, by omega⟩
  · rw [if_neg h1]
    by_cases h2 : (hasKind tile.suit ((tile.value : Int) - 1) hand &&
        hasKind tile.suit ((tile.value : Int) + 1) hand) = true
    · rw [if_pos h2]
      have := Bool.and_eq_true_iff.mp h2
      exact ⟨this.1, this.2, by omega⟩
    · rw [if_neg h2]
      rcases hone with ⟨ha, hb⟩ | ⟨ha, hb⟩ | ⟨ha, hb⟩
      · exact absurd (Bool.and_eq_true_iff.mpr ⟨ha, hb⟩) h1
      · exact absurd (Bool.and_eq_true_iff.mpr ⟨ha, hb⟩) h2
      · exact ⟨ha, hb, by omega⟩

/-- Shape of the Chow extraction when a completing pair is in hand. -/
theorem chowExtract_found (tile : Tile) (hand : List Tile)
    (hone :
      (hasKind tile.suit ((tile.value : Int) - 2) hand = true ∧
        hasKind tile.suit ((tile.value : Int) - 1) hand = true) ∨
      (hasKind tile.suit ((tile.value : Int) - 1) hand = true ∧
        hasKind tile.suit ((tile.value : Int) + 1) hand = true) ∨
      (hasKind tile.suit ((tile.value : Int) + 1) hand = true ∧
        hasKind tile.suit ((tile.value : Int) + 2) hand = true)) :
    ∃ t1 t2 r, chowExtract tile hand = ([t1, t2], r) ∧
      t1.suit = tile.suit ∧ t2.suit = tile.suit ∧
      (t1.value : Int) = (chowPick tile hand).1 ∧
      (t2.value : Int) = (chowPick tile hand).2 ∧
      hand.Perm (t1 :: t2 :: r) ∧ hand.length = r.length + 2 := by
  obtain ⟨hp1, hp2, hne⟩ := chowPick_present tile hand hone
  obtain ⟨t1, r1, hrm1, hs1, hv1, hperm1, hlen1⟩ :=
    removeFirstKind_found tile.suit (chowPick tile hand).1 hand hp1
  have hp2r : hasKind tile.suit (chowPick tile hand).2 r1 = true :=
    hasKind_preserved tile.suit hne hperm1 hv1 hp2
  obtain ⟨t2, r2, hrm2, hs2, hv2, hperm2, hlen2⟩ :=
    removeFirstKind_found tile.suit (chowPick tile hand).2 r1 hp2r
  refine ⟨t1, t2, r2, ?_, hs1, hs2, hv1, hv2, ?_, by omega⟩
  · simp only [chowExtract]
    rw [hrm1]
    dsimp only
    rw [hrm2]
    rfl
  · exact hperm1.trans (hperm2.cons t1)

/-- A hand holds a tile of suit `s` and integer value `w`
(specification-side form of `hasKind`). -/
def handHolds (hand : List Tile) (s : Suit) (w : Int) : Prop :=
  ∃ t ∈ hand, t.suit = s ∧ (t.value : Int) = w

instance (hand : List Tile) (s : Suit) (w : Int) :
    Decidable (handHolds hand s w) := by
  unfold handHolds
  exact inferInstance

theorem handHolds_iff_hasKind (hand : List Tile) (s : Suit) (w : Int) :
    handHolds hand s w ↔ hasKind s w hand = true := (hasKind_iff s w hand).symm

/-- The values of the lowest completing chow sequence, in the removal
order of the source (claimed tile first). -/
def lowestChowValues (tile : Tile) (hand : List Tile) : List Int :=
  let v : Int := (tile.value : Int)
  let s := tile.suit
  if handHolds hand s (v - 2) ∧ handHolds hand s (v - 1) then [v, v - 2, v - 1]
  else if handHolds hand s (v - 1) ∧ handHolds hand s (v + 1) then [v, v - 1, v + 1]
  else [v, v + 1, v + 2]

theorem lowestChowValues_eq (tile : Tile) (hand : List Tile) :
    lowestChowValues tile hand =
      [(tile.value : Int), (chowPick tile hand).1, (chowPick tile hand).2] := by
  unfold lowestChowValues chowPick
  by_cases h1 : handHolds hand tile.suit ((tile.value : Int) - 2) ∧
      handHolds hand tile.suit ((tile.value : Int) - 1)
  · rw [if_pos h1, if_pos (Bool.and_eq_true_iff.mpr
      ⟨(handHolds_iff_hasKind _ _ _).mp h1.1,
       (handHolds_iff_hasKind _ _ _).mp h1.2⟩)]
  · rw [if_neg h1, if_neg (fun hb => h1
      ⟨(handHolds_iff_hasKind _ _ _).mpr (Bool.and_eq_true_iff.mp hb).1,
       (handHolds_iff_hasKind _ _ _).mpr (Bool.and_eq_true_iff.mp hb).2⟩)]
    by_cases h2 : handHolds hand tile.suit ((tile.value : Int) - 1) ∧
        handHolds hand tile.suit ((tile.value : Int) + 1)
    · rw [if_pos h2, if_pos (Bool.and_eq_true_iff.mpr
        ⟨(handHolds_iff_hasKind _ _ _).mp h2.1,
         (handHolds_iff_hasKind _ _ _).mp h2.2⟩)]
    · rw [if_neg h2, if_neg (fun hb => h2
        ⟨(handHolds_iff_hasKind _ _ _).mpr (Bool.and_eq_true_iff.mp hb).1,
         (handHolds_iff_hasKind _ _ _).mpr (Bool.and_eq_true_iff.mp hb).2⟩)]

/-- With a discard pending, the three tile-claim actions route through
`resolveClaim` and clear the pending claims. -/
theorem performAction_claim_eq (st : EngineState) (tile : Tile)
    (fromP pid : Fin 4) (action : String)
    (hld : st.game.lastDiscard = some (tile, fromP))
    (hact : action = "碰" ∨ action = "杠" ∨ action = "吃") :
    performAction st pid action =
      { game := resolveClaim st.game tile fromP pid action, pending := [] } := by
  have hne : ¬ action = "胡" := by
    rcases hact with rfl | rfl | rfl <;> decide
  unfold performAction
  rw [hld]
  dsimp only
  rw [if_neg hne, if_pos hact]

theorem countP_isSameTile (l : List Tile) (tile : Tile) :
    l.countP (fun t => isSameTile t tile) = tileCounts l (tileKind tile) := by
  rw [List.countP_eq_length_filter]
  exact filter_isSameTile_length l tile

theorem dropLast_append_of_getLast (l : List Tile) (a : Tile)
    (h : l.getLast? = some a) : l.dropLast ++ [a] = l := by
  induction l with
  | nil => cases h
  | cons x xs ih =>
    cases xs with
    | nil =>
      simp at h
      subst h
      simp
    | cons y ys =>
      rw [List.getLast?_cons_cons] at h
      have hstep := ih h
      calc (x :: y :: ys).dropLast ++ [a]
          = x :: ((y :: ys).dropLast ++ [a]) := by simp
        _ = x :: (y :: ys) := by rw [hstep]

theorem resolveClaim_players_pid (g : GameState) (tile : Tile)
    (fromP pid : Fin 4) (action : String) (hnp : pid ≠ fromP) :
    (resolveClaim g tile fromP pid action).players pid =
      { g.players pid with
        hand := sortHand (claimExtract action tile (g.players pid).hand).2,
        melds := (g.players pid).melds ++
          [{ type := action,
             tiles := tile :: (claimExtract action tile (g.players pid).hand).1,
             fromPlayer := some fromP }] } := by
  simp only [resolveClaim]
  rw [updPlayer_other _ _ _ _ hnp, updPlayer_same]

theorem resolveClaim_players_fromP (g : GameState) (tile : Tile)
    (fromP pid : Fin 4) (action : String) :
    (resolveClaim g tile fromP pid action).players fromP =
      { g.players fromP with
        discards := (g.players fromP).discards.dropLast } := by
  simp only [resolveClaim]
  rw [updPlayer_same]

theorem resolveClaim_misc (g : GameState) (tile : Tile)
    (fromP pid : Fin 4) (action : String) :
    (resolveClaim g tile fromP pid action).currentTurn = pid ∧
    (resolveClaim g tile fromP pid action).lastDiscard = none ∧
    (resolveClaim g tile fromP pid action).phase = Phase.Playing := by
  simp [resolveClaim]

/-- The effects the spec requires of a resolved claim for the removal
count `removed` (2 for Pung, 3 for Kong, 2 for Chow): the hand shrinks
by `removed`, one new meld of `removed + 1` tiles appears, the new hand
together with the meld's tiles is a permutation of the old hand plus the
claimed tile (so the melded tiles other than the claimed one are exactly
the removed hand tiles), for Pung/Kong every melded tile matches the
claimed tile's kind, and a Chow takes the lowest completing sequence. -/
def ClaimResolution (st : EngineState) (tile : Tile) (fromP pid : Fin 4)
    (action : String) (removed : Nat) : Prop :=
  let st2 := performAction st pid action
  (st2.game.players pid).hand.length + removed =
    (st.game.players pid).hand.length ∧
  (∃ m : Meld,
    (st2.game.players pid).melds = (st.game.players pid).melds ++ [m] ∧
    tile ∈ m.tiles ∧ m.fromPlayer = some fromP ∧
    m.tiles.length = removed + 1 ∧
    ((st2.game.players pid).hand ++ m.tiles).Perm
      (tile :: (st.game.players pid).hand) ∧
    ((action = "碰" ∨ action = "杠") →
      ∀ t ∈ m.tiles, isSameTile t tile = true) ∧
    (action = "吃" →
      (m.tiles.map fun t => (t.value : Int)) =
        lowestChowValues tile (st.game.players pid).hand ∧
      ∀ t ∈ m.tiles, t.suit = tile.suit)) ∧
  (st2.game.players fromP).discards ++ [tile] =
    (st.game.players fromP).discards ∧
  st2.game.currentTurn = pid ∧
  st2.game.lastDiscard = none ∧
  st2.game.phase = Phase.Playing ∧
  st2.pending = []

/-- Claim C5: a resolved Pung/Kong/Chow claim with its precondition
satisfied removes exactly 2/3/2 matching tiles from the claimant's hand
(the new hand plus the meld is a permutation of the old hand plus the
claimed tile, and for Pung/Kong every melded tile matches the claimed
tile's kind), appends exactly one meld containing the claimed tile
tagged with the discarder, removes the claimed tile from the discarder's
discard pile, hands the turn to the claimant, clears `lastDiscard` and
the claim set, re-enters `Playing`, and a Chow takes the lowest
completing sequence of tiles of the claimed tile's suit. -/
theorem claim_C5 :
    ∀ (st : EngineState) (tile : Tile) (fromP pid : Fin 4),
      st.game.lastDiscard = some (tile, fromP) →
      pid ≠ fromP →
      (st.game.players fromP).discards.getLast? = some tile →
      ((2 ≤ tileCounts (st.game.players pid).hand (tileKind tile) →
          ClaimResolution st tile fromP pid "碰" 2) ∧
       (tileCounts (st.game.players pid).hand (tileKind tile) = 3 →
          ClaimResolution st tile fromP pid "杠" 3) ∧
       (((handHolds (st.game.players pid).hand tile.suit ((tile.value : Int) - 2) ∧
           handHolds (st.game.players pid).hand tile.suit ((tile.value : Int) - 1)) ∨
         (handHolds (st.game.players pid).hand tile.suit ((tile.value : Int) - 1) ∧
           handHolds (st.game.players pid).hand tile.suit ((tile.value : Int) + 1)) ∨
         (handHolds (st.game.players pid).hand tile.suit ((tile.value : Int) + 1) ∧
           handHolds (st.game.players pid).hand tile.suit ((tile.value : Int) + 2))) →
          ClaimResolution st tile fromP pid "吃" 2)) := by
  intro st tile fromP pid hld hnp hlast
  have main : ∀ (action : String) (removed : Nat),
      (action = "碰" ∨ action = "杠" ∨ action = "吃") →
      (claimExtract action tile (st.game.players pid).hand).1.length = removed →
      (claimExtract action tile (st.game.players pid).hand).2.length + removed =
        (st.game.players pid).hand.length →
      ((claimExtract action tile (st.game.players pid).hand).1 ++
        (claimExtract action tile (st.game.players pid).hand).2).Perm
        (st.game.players pid).hand →
      ((action = "碰" ∨ action = "杠") →
        ∀ t ∈ tile :: (claimExtract action tile (st.game.players pid).hand).1,
          isSameTile t tile = true) →
      (action = "吃" →
        ((tile :: (claimExtract action tile (st.game.players pid).hand).1).map
            fun t => (t.value : Int)) =
          lowestChowValues tile (st.game.players pid).hand ∧
        ∀ t ∈ tile :: (claimExtract action tile (st.game.players pid).hand).1,
          t.suit = tile.suit) →
      ClaimResolution st tile fromP pid action removed := by
    intro action removed hact hrl hhl hpm hmatch hchow
    simp only [ClaimResolution]
    rw [performAction_claim_eq st tile fromP pid action hld hact]
    dsimp only
    refine ⟨?_, ?_, ?_, (resolveClaim_misc _ _ _ _ _).1,
      (resolveClaim_misc _ _ _ _ _).2.1, (resolveClaim_misc _ _ _ _ _).2.2, rfl⟩
    · rw [resolveClaim_players_pid st.game tile fromP pid action hnp]
      dsimp only
      rw [sortHand_length]
      exact hhl
    · refine
        ⟨{ type := action,
           tiles := tile :: (claimExtract action tile (st.game.players pid).hand).1,
           fromPlayer := some fromP },
         ?_, List.mem_cons_self _ _, rfl, ?_, ?_, hmatch, hchow⟩
      · rw [resolveClaim_players_pid st.game tile fromP pid action hnp]
      · simp [hrl]
      · rw [resolveClaim_players_pid st.game tile fromP pid action hnp]
        dsimp only
        refine ((sortHand_perm _).append_right _).trans ?_
        refine List.perm_middle.trans ?_
        exact (List.perm_append_comm.trans hpm).cons tile
    · rw [resolveClaim_players_fromP]
      dsimp only
      exact dropLast_append_of_getLast _ _ hlast
  refine ⟨?_, ?_, ?_⟩
  · -- Pung
    intro h2
    have hce : claimExtract "碰" tile (st.game.players pid).hand =
        ((extractMatches (fun t => isSameTile t tile) 2
            (st.game.players pid).hand).1.reverse,
         (extractMatches (fun t => isSameTile t tile) 2
            (st.game.players pid).hand).2) := by
      simp [claimExtract]
    have hr1 : (claimExtract "碰" tile (st.game.players pid).hand).1.length = 2 := by
      rw [hce]
      dsimp only
      rw [List.length_reverse, extractMatches_removed_length, countP_isSameTile]
      omega
    apply main "碰" 2 (Or.inl rfl) hr1
    · have hperm := (extractMatches_perm (fun t => isSameTile t tile) 2
        (st.game.players pid).hand).length_eq
      rw [List.length_append] at hperm
      have hr1b : (extractMatches (fun t => isSameTile t tile) 2
          (st.game.players pid).hand).1.length = 2 := by
        rw [extractMatches_removed_length, countP_isSameTile]
        omega
      rw [hce]
      dsimp only
      omega
    · rw [hce]
      dsimp only
      exact ((List.reverse_perm _).append_right _).trans
        (extractMatches_perm _ _ _)
    · intro _ t ht
      rw [hce] at ht
      dsimp only at ht
      rcases List.mem_cons.mp ht with rfl | h2
      · simp [isSameTile]
      · exact extractMatches_matches _ _ _ t (List.mem_reverse.mp h2)
    · intro hcon
      exact absurd hcon (by decide)
  · -- Kong
    intro h3
    have hce : claimExtract "杠" tile (st.game.players pid).hand =
        ((extractMatches (fun t => isSameTile t tile)
            (st.game.players pid).hand.length (st.game.players pid).hand).1.reverse,
         (extractMatches (fun t => isSameTile t tile)
            (st.game.players pid).hand.length (st.game.players pid).hand).2) := by
      simp [claimExtract]
    have hcle : ((st.game.players pid).hand.countP fun t => isSameTile t tile) ≤
        (st.game.players pid).hand.length := List.countP_le_length _
    have hr1b : (extractMatches (fun t => isSameTile t tile)
        (st.game.players pid).hand.length (st.game.players pid).hand).1.length = 3 := by
      rw [extractMatches_removed_length]
      have := countP_isSameTile (st.game.players pid).hand tile
      omega
    have hr1 : (claimExtract "杠" tile (st.game.players pid).hand).1.length = 3 := by
      rw [hce]
      dsimp only
      rw [List.length_reverse]
      exact hr1b
    apply main "杠" 3 (Or.inr (Or.inl rfl)) hr1
    · have hperm := (extractMatches_perm (fun t => isSameTile t tile)
        (st.game.players pid).hand.length (st.game.players pid).hand).length_eq
      rw [List.length_append] at hperm
      rw [hce]
      dsimp only
      omega
    · rw [hce]
      dsimp only
      exact ((List.reverse_perm _).append_right _).trans
        (extractMatches_perm _ _ _)
    · intro _ t ht
      rw [hce] at ht
      dsimp only at ht
      rcases List.mem_cons.mp ht with rfl | h2
      · simp [isSameTile]
      · exact extractMatches_matches _ _ _ t (List.mem_reverse.mp h2)
    · intro hcon
      exact absurd hcon (by decide)
  · -- Chow
    intro hone
    have honeK :
        (hasKind tile.suit ((tile.value : Int) - 2)
            (st.game.players pid).hand = true ∧
          hasKind tile.suit ((tile.value : Int) - 1)
            (st.game.players pid).hand = true) ∨
        (hasKind tile.suit ((tile.value : Int) - 1)
            (st.game.players pid).hand = true ∧
          hasKind tile.suit ((tile.value : Int) + 1)
            (st.game.players pid).hand = true) ∨
        (hasKind tile.suit ((tile.value : Int) + 1)
            (st.game.players pid).hand = true ∧
          hasKind tile.suit ((tile.value : Int) + 2)
            (st.game.players pid).hand = true) := by
      rcases hone with ⟨ha, hb⟩ | ⟨ha, hb⟩ | ⟨ha, hb⟩
      · exact Or.inl ⟨(handHolds_iff_hasKind _ _ _).mp ha,
          (handHolds_iff_hasKind _ _ _).mp hb⟩
      · exact Or.inr (Or.inl ⟨(handHolds_iff_hasKind _ _ _).mp ha,
          (handHolds_iff_hasKind _ _ _).mp hb⟩)
      · exact Or.inr (Or.inr ⟨(handHolds_iff_hasKind _ _ _).mp ha,
          (handHolds_iff_hasKind _ _ _).mp hb⟩)
    obtain ⟨t1, t2, r, hch, hs1, hs2, hv1, hv2, hperm, hlen⟩ :=
      chowExtract_found tile (st.game.players pid).hand honeK
    have hce : claimExtract "吃" tile (st.game.players pid).hand = ([t1, t2], r) := by
      rw [claimExtract]
      rw [if_neg (by decide), if_neg (by decide)]
      exact hch
    apply main "吃" 2 (Or.inr (Or.inr rfl))
    · rw [hce]
      rfl
    · rw [hce]
      dsimp only
      omega
    · rw [hce]
      exact hperm.symm
    · intro hcon
      rcases hcon with hcon | hcon <;> exact absurd hcon (by decide)
    · intro hcon
      rw [hce]
      refine ⟨?_, ?_⟩
      · rw [lowestChowValues_eq]
        dsimp only [List.map_cons]
        rw [hv1, hv2]
        rfl
      · intro t ht
        rcases List.mem_cons.mp ht with rfl | ht2
        · rfl
        · rcases List.mem_cons.mp ht2 with rfl | ht3
          · exact hs1
          · rcases List.mem_cons.mp ht3 with rfl | ht4
            · exact hs2
            · cases ht4

/-- A concrete action-window state: seat 1 has just discarded Wan-5,
seat 2 holds two Wan-5 (a Pung claim), seat 0 holds Wan-4 and Wan-6. -/
def fixturePlayers : Fin 4 → PlayerState := fun i =>
  { initPlayers i with
    hand :=
      if i = 2 then
        [mkTile Suit.Wan 5 100, mkTile Suit.Wan 5 101, mkTile Suit.Tong 1 102]
      else if i = 0 then [mkTile Suit.Wan 4 103, mkTile Suit.Wan 6 104]
      else [mkTile Suit.Tong 9 105],
    discards := if i = 1 then [mkTile Suit.Wan 5 99] else [] }

def fixtureSt : EngineState :=
  { game := {
      deck := [mkTile Suit.Tong 2 110], players := fixturePlayers,
      currentTurn := 2,
      lastDiscard := some (mkTile Suit.Wan 5 99, 1),
      phase := Phase.ActionWindow,
      winner := none, winType := none, logs := [], wallCount := 1 },
    pending := checkResponseActions fixturePlayers (mkTile Suit.Wan 5 99) 1 }

/-- Witness for C5: the Pung case on the concrete window state. -/
theorem claim_C5_witness :
    ClaimResolution fixtureSt (mkTile Suit.Wan 5 99) 1 2 "碰" 2 :=
  (claim_C5 fixtureSt (mkTile Suit.Wan 5 99) 1 2 rfl (by decide)
    (by decide)).1 (by decide)

/-! ### Fixtures for the scheduling, guard and log claims -/

/-- Seat 0 has discarded Wan-5; AI seat 1 can Pung it, AI seat 2 holds a
single Wan-5 so the discard completes a (degenerate) winning pair. -/
def c2Players : Fin 4 → PlayerState := fun i =>
  { initPlayers i with
    hand :=
      if i = 1 then
        [mkTile Suit.Wan 5 121, mkTile Suit.Wan 5 122, mkTile Suit.Tong 1 123]
      else if i = 2 then [mkTile Suit.Wan 5 120]
      else if i = 0 then [mkTile Suit.Tong 9 130]
      else [mkTile Suit.Tong 9 131],
    discards := if i = 0 then [mkTile Suit.Wan 5 99] else [] }

def c2St : EngineState :=
  { game := {
      deck := [mkTile Suit.Tong 2 110], players := c2Players, currentTurn := 0,
      lastDiscard := some (mkTile Suit.Wan 5 99, 0),
      phase := Phase.ActionWindow,
      winner := none, winType := none, logs := [], wallCount := 1 },
    pending := checkResponseActions c2Players (mkTile Suit.Wan 5 99) 0 }

/-- `fixtureSt` with a full 50-entry log. -/
def logFullSt : EngineState :=
  { fixtureSt with game := { fixtureSt.game with logs := List.replicate 50 "x" } }

/-- `fixtureSt` back in `Playing` with seat 1 to move, no last discard. -/
def outOfTurnSt : EngineState :=
  { game := { fixtureSt.game with
      phase := Phase.Playing, lastDiscard := none, currentTurn := 1 },
    pending := [] }

/-- `fixtureSt` with an empty wall. -/
def emptyDeckSt : EngineState :=
  { fixtureSt with game := { fixtureSt.game with deck := [] } }

/-- `logFullSt` with an empty wall (for the stalemate log append). -/
def logFullEmptySt : EngineState :=
  { logFullSt with game := { logFullSt.game with deck := [] } }

/-! ### Claim C2 (win-priority scheduling) -/

/-- Counterexample for C2: the action window holds a Pung claim for AI
seat 1 and a Win claim for AI seat 2; the AI scheduler fires seat 1's
Pung (it only applies win-priority inside the first pending entry), the
game stays in `Playing` and nobody wins — the pending Win is dropped. -/
theorem claim_C2_counterexample :
    (∃ e ∈ c2St.pending, e.player = 2 ∧ "胡" ∈ e.actions) ∧
    (aiStep c2St).game.phase = Phase.Playing ∧
    (aiStep c2St).game.winner = none := by
  refine ⟨⟨⟨2, ["胡"]⟩, by decide, by decide, by decide⟩, by decide, by decide⟩

/-- Claim C2 (amended): win priority is applied only within the first
pending AI claimant's own action set; and whenever any seat performs the
Win action with a discard pending, the game transitions to `GameOver`
with that seat as winner, `winType = Discard`, and the pending claims
are all dropped. -/
theorem claim_C2 :
    (∀ (st : EngineState) (pid : Fin 4) (tile : Tile) (fromP : Fin 4),
      st.game.lastDiscard = some (tile, fromP) →
      (performAction st pid "胡").game.phase = Phase.GameOver ∧
      (performAction st pid "胡").game.winner = some pid ∧
      (performAction st pid "胡").game.winType = some WinType.Discard ∧
      (performAction st pid "胡").pending = []) ∧
    (∀ (players : Fin 4 → PlayerState) (pending : List PendingEntry)
        (e : PendingEntry) (rest : List PendingEntry),
      pending.filter (fun x => (players x.player).isAI) = e :: rest →
      "胡" ∈ e.actions →
      aiRespond players pending = some (e.player, "胡")) := by
  constructor
  · intro st pid tile fromP hld
    unfold performAction
    rw [hld]
    dsimp only
    rw [if_pos rfl]
    exact ⟨rfl, rfl, rfl, rfl⟩
  · intro players pending e rest hfil hmem
    unfold aiRespond
    rw [hfil]
    dsimp only
    rw [if_pos (List.elem_eq_true_of_mem hmem)]

/-- Witness for C2 at the concrete window state. -/
theorem claim_C2_witness :
    (performAction c2St 2 "胡").game.phase = Phase.GameOver ∧
    (performAction c2St 2 "胡").game.winner = some 2 ∧
    (performAction c2St 2 "胡").game.winType = some WinType.Discard ∧
    (performAction c2St 2 "胡").pending = [] :=
  claim_C2.1 c2St 2 (mkTile Suit.Wan 5 99) 0 rfl

/-! ### Claim C3 (wall exhaustion) -/

/-- Claim C3: a turn-advance draw on an empty wall transitions to
`GameOver` with no winner and moves no tile; but the Kong supplementary
draw pops the empty wall unchecked (modelled `none` — the source
appends an undefined tile to the hand instead of ending the game). -/
theorem claim_C3 :
    (∀ (st : EngineState) (pid : Fin 4), st.game.deck = [] →
      (nextTurn st pid).game.phase = Phase.GameOver ∧
      (nextTurn st pid).game.winner = none ∧
      (nextTurn st pid).game.players = st.game.players ∧
      (nextTurn st pid).game.deck = st.game.deck) ∧
    (∀ (st : EngineState) (pid : Fin 4), st.game.deck = [] →
      kongReplacementDraw st pid = none) := by
  constructor
  · intro st pid h
    unfold nextTurn
    rw [dif_pos h]
    exact ⟨rfl, rfl, rfl, rfl⟩
  · intro st pid h
    unfold kongReplacementDraw popDeck
    rw [dif_pos h]

/-- Witness for C3 at a concrete empty-wall state. -/
theorem claim_C3_witness :
    ((nextTurn emptyDeckSt 0).game.phase = Phase.GameOver ∧
     (nextTurn emptyDeckSt 0).game.winner = none ∧
     (nextTurn emptyDeckSt 0).game.players = emptyDeckSt.game.players ∧
     (nextTurn emptyDeckSt 0).game.deck = emptyDeckSt.game.deck) ∧
    kongReplacementDraw emptyDeckSt 0 = none :=
  ⟨claim_C3.1 emptyDeckSt 0 rfl, claim_C3.2 emptyDeckSt 0 rfl⟩

/-! ### Claim C4 (precondition guards) -/

theorem findRemove_eq_none (p : Tile → Bool) (l : List Tile)
    (h : ∀ t ∈ l, p t = false) : findRemove p l = none := by
  induction l with
  | nil => rfl
  | cons a ts ih =>
    unfold findRemove
    rw [if_neg (by simp [h a (List.mem_cons_self _ _)]),
      ih fun t ht => h t (List.mem_cons_of_mem _ ht)]
    rfl

/-- Counterexample for C4: with seat 1 to move, an out-of-turn discard
by seat 0 is accepted and mutates the state (the engine never checks
`currentTurn`). -/
theorem claim_C4_counterexample :
    outOfTurnSt.game.phase = Phase.Playing ∧
    outOfTurnSt.game.currentTurn ≠ 0 ∧
    ((handleDiscard outOfTurnSt 0 103).game.players 0).discards ≠
      (outOfTurnSt.game.players 0).discards := by
  refine ⟨by decide, by decide, by decide⟩

/-- Claim C4 (amended): the guards that exist are honoured as no-ops — a
discard in a phase other than `Playing`, a discard of a tile id not in
the acting seat's hand, and a claim without a pending discard all leave
the state untouched.  (An out-of-turn discard and a claim whose
(seat, kind) pair is not in the claim set are *not* rejected.) -/
theorem claim_C4 :
    (∀ (st : EngineState) (pid : Fin 4) (tid : Nat),
      st.game.phase ≠ Phase.Playing → handleDiscard st pid tid = st) ∧
    (∀ (st : EngineState) (pid : Fin 4) (tid : Nat),
      (∀ t ∈ (st.game.players pid).hand, t.id ≠ tid) →
      handleDiscard st pid tid = st) ∧
    (∀ (st : EngineState) (pid : Fin 4) (action : String),
      st.game.lastDiscard = none → performAction st pid action = st) := by
  refine ⟨?_, ?_, ?_⟩
  · intro st pid tid h
    unfold handleDiscard
    rw [if_pos h]
  · intro st pid tid h
    unfold handleDiscard
    by_cases hp : st.game.phase ≠ Phase.Playing
    · rw [if_pos hp]
    · rw [if_neg hp]
      dsimp only
      rw [findRemove_eq_none (fun t => decide (t.id = tid))
        (st.game.players pid).hand (fun t ht => by simp [h t ht])]
  · intro st pid action h
    unfold performAction
    rw [h]

/-- Witness for C4: a claim with no pending discard is a no-op. -/
theorem claim_C4_witness :
    performAction outOfTurnSt 0 "碰" = outOfTurnSt :=
  claim_C4.2.2 outOfTurnSt 0 "碰" rfl

/-! ### Claim C9 (log bound) -/

/-- Counterexample for C9: with the log already at 50 entries, each of
the three untruncated appends — a Win resolution, a tile-claim
resolution (here a Pung), and the wall-exhaustion stalemate — pushes a
51st entry. -/
theorem claim_C9_counterexample :
    logFullSt.game.logs.length = 50 ∧
    (performAction logFullSt 2 "胡").game.logs.length = 51 ∧
    (performAction logFullSt 2 "碰").game.logs.length = 51 ∧
    (nextTurn logFullEmptySt 0).game.logs.length = 51 := by
  refine ⟨by decide, by decide, by decide, by decide⟩

/-- Claim C9 (amended): only the `addLog` path (discard announcements)
truncates the log to the 50 most recent entries; the win append, the
claim-resolution append and the wall-exhaustion stalemate append each
grow the log by one without truncation, so the log can exceed 50. -/
theorem claim_C9 :
    (∀ (g : GameState) (msg : String), (addLog g msg).logs.length ≤ 50) ∧
    (∀ (st : EngineState) (pid : Fin 4) (tile : Tile) (fromP : Fin 4),
      st.game.lastDiscard = some (tile, fromP) →
      (performAction st pid "胡").game.logs.length =
        st.game.logs.length + 1) ∧
    (∀ (st : EngineState) (pid : Fin 4) (tile : Tile) (fromP : Fin 4)
        (action : String),
      st.game.lastDiscard = some (tile, fromP) →
      (action = "碰" ∨ action = "杠" ∨ action = "吃") →
      (performAction st pid action).game.logs.length =
        st.game.logs.length + 1) ∧
    (∀ (st : EngineState) (pid : Fin 4),
      st.game.deck = [] →
      (nextTurn st pid).game.logs.length = st.game.logs.length + 1) := by
  refine ⟨?_, ?_, ?_, ?_⟩
  · intro g msg
    simp [addLog]
  · intro st pid tile fromP hld
    unfold performAction
    rw [hld]
    dsimp only
    rw [if_pos rfl]
    simp
  · intro st pid tile fromP action hld hact
    rw [performAction_claim_eq st tile fromP pid action hld hact]
    simp [resolveClaim]
  · intro st pid hd
    unfold nextTurn
    rw [dif_pos hd]
    simp

/-- Witness for C9 at the full-log state: the win, Pung and stalemate
appends each take the 50-entry log to 51 entries. -/
theorem claim_C9_witness :
    (performAction logFullSt 2 "胡").game.logs.length =
      logFullSt.game.logs.length + 1 ∧
    (performAction logFullSt 2 "碰").game.logs.length =
      logFullSt.game.logs.length + 1 ∧
    (nextTurn logFullEmptySt 0).game.logs.length =
      logFullEmptySt.game.logs.length + 1 :=
  ⟨claim_C9.2.1 logFullSt 2 (mkTile Suit.Wan 5 99) 1 rfl,
   claim_C9.2.2.1 logFullSt 2 (mkTile Suit.Wan 5 99) 1 "碰" rfl (Or.inl rfl),
   claim_C9.2.2.2 logFullEmptySt 0 rfl⟩

/-! ### Tile conservation (claim C10) -/

/-- All physical tiles a seat accounts for: hand, discard pile, and
meld tiles. -/
def playerTiles (p : PlayerState) : Multiset Tile :=
  (p.hand : Multiset Tile) + (p.discards : Multiset Tile) +
    (p.melds.map fun m => (m.tiles : Multiset Tile)).sum

/-- All physical tiles of a game state: wall plus the four seats. -/
def allTiles (g : GameState) : Multiset Tile :=
  (g.deck : Multiset Tile) +
    ((List.finRange 4).map fun i => playerTiles (g.players i)).sum

theorem sum_map_if_update {β : Type} [AddCommMonoid β] (l : List (Fin 4))
    (hnd : l.Nodup) (i : Fin 4) (hi : i ∈ l) (f : Fin 4 → β) (b : β) :
    (l.map fun j => if j = i then b else f j).sum + f i = (l.map f).sum + b := by
  induction l with
  | nil => cases hi
  | cons a t ih =>
    rcases List.nodup_cons.mp hnd with ⟨hat, hnt⟩
    simp only [List.map_cons, List.sum_cons]
    by_cases hai : a = i
    · subst hai
      have hmap : (t.map fun j => if j = a then b else f j) = t.map f := by
        apply List.map_congr_left
        intro x hx
        have hxa : x ≠ a := fun hh => hat (hh ▸ hx)
        rw [if_neg hxa]
      rw [if_pos rfl, hmap]
      abel
    · have hit : i ∈ t := by
        rcases List.mem_cons.mp hi with h | h
        · exact absurd h.symm hai
        · exact h
      rw [if_neg hai, add_assoc, ih hnt hit, ← add_assoc]

/-- Updating one seat changes the four-seat tile sum by swapping that
seat's contribution. -/
theorem sum_playerTiles_upd (ps : Fin 4 → PlayerState) (i : Fin 4)
    (p : PlayerState) :
    ((List.finRange 4).map fun j => playerTiles (updPlayer ps i p j)).sum +
      playerTiles (ps i) =
    ((List.finRange 4).map fun j => playerTiles (ps j)).sum + playerTiles p := by
  have hfn : (fun j => playerTiles (updPlayer ps i p j)) =
      fun j => if j = i then playerTiles p else playerTiles (ps j) := by
    funext j
    by_cases hj : j = i <;> simp [updPlayer, hj]
  rw [hfn]
  exact sum_map_if_update _ (List.nodup_finRange 4) i (List.mem_finRange i) _ _

theorem coe_sortHand (l : List Tile) :
    ((sortHand l : List Tile) : Multiset Tile) = (l : Multiset Tile) :=
  Multiset.coe_eq_coe.mpr (sortHand_perm l)

/-- `nextTurn` conserves the tiles: a draw moves one tile from the wall
to the hand, the stalemate branch moves nothing. -/
theorem allTiles_nextTurn (st : EngineState) (pid : Fin 4) :
    allTiles (nextTurn st pid).game = allTiles st.game := by
  unfold nextTurn
  by_cases h : st.game.deck = []
  · rw [dif_pos h]
    rfl
  · rw [dif_neg h]
    dsimp only
    unfold allTiles
    dsimp only
    have hdeck : (st.game.deck : Multiset Tile) =
        (st.game.deck.dropLast : Multiset Tile) + {st.game.deck.getLast h} := by
      rw [← Multiset.coe_singleton, Multiset.coe_add,
        List.dropLast_append_getLast h]
    have hplayer : playerTiles
        { st.game.players pid with
          hand := sortHand ((st.game.players pid).hand ++
            [st.game.deck.getLast h]) } =
        playerTiles (st.game.players pid) + {st.game.deck.getLast h} := by
      unfold playerTiles
      dsimp only
      rw [coe_sortHand, ← Multiset.coe_add, Multiset.coe_singleton]
      abel
    apply add_right_cancel (b := playerTiles (st.game.players pid))
    rw [add_assoc, sum_playerTiles_upd, hplayer, hdeck]
    abel

theorem playerTiles_push (p : PlayerState) (t : Tile) :
    playerTiles { p with hand := p.hand ++ [t] } = playerTiles p + {t} := by
  unfold playerTiles
  dsimp only
  rw [← Multiset.coe_add, Multiset.coe_singleton]
  abel

theorem playerTiles_push_sorted (p : PlayerState) (t : Tile) :
    playerTiles { p with hand := sortHand (p.hand ++ [t]) } =
      playerTiles p + {t} := by
  unfold playerTiles
  dsimp only
  rw [coe_sortHand, ← Multiset.coe_add, Multiset.coe_singleton]
  abel

theorem popDeck_some (d : List Tile) (r : Tile × List Tile)
    (h : popDeck d = some r) :
    (d : Multiset Tile) = (r.2 : Multiset Tile) + {r.1} := by
  unfold popDeck at h
  by_cases hd : d = []
  · rw [dif_pos hd] at h
    cases h
  · rw [dif_neg hd] at h
    obtain rfl := (Option.some.inj h).symm
    dsimp only
    rw [← Multiset.coe_singleton, Multiset.coe_add,
      List.dropLast_append_getLast hd]

/-- A discard conserves the tiles: the tile moves from hand to the
discard pile (and the possible empty-claim-set auto-draw conserves by
`allTiles_nextTurn`). -/
theorem allTiles_handleDiscard (st : EngineState) (pid : Fin 4) (tid : Nat) :
    allTiles (handleDiscard st pid tid).game = allTiles st.game := by
  unfold handleDiscard
  by_cases hp : st.game.phase ≠ Phase.Playing
  · rw [if_pos hp]
  · rw [if_neg hp]
    dsimp only
    cases hfr : findRemove (fun t => decide (t.id = tid))
        (st.game.players pid).hand with
    | none => rfl
    | some r =>
      dsimp only
      obtain ⟨-, hperm, -⟩ := findRemove_spec _ _ r.1 r.2 (by rw [hfr])
      have hpt : playerTiles
          { st.game.players pid with
            hand := sortHand r.2,
            discards := (st.game.players pid).discards ++ [r.1] } =
          playerTiles (st.game.players pid) := by
        unfold playerTiles
        dsimp only
        rw [coe_sortHand, ← Multiset.coe_add, Multiset.coe_singleton]
        have hh : ((st.game.players pid).hand : Multiset Tile) =
            r.1 ::ₘ (r.2 : Multiset Tile) := by
          rw [Multiset.coe_eq_coe.mpr hperm, ← Multiset.cons_coe]
        rw [hh, ← Multiset.singleton_add]
        abel
      have hsum := sum_playerTiles_upd st.game.players pid
        { st.game.players pid with
          hand := sortHand r.2,
          discards := (st.game.players pid).discards ++ [r.1] }
      rw [hpt] at hsum
      have hS := add_right_cancel hsum
      by_cases hae : (checkResponseActions st.game.players r.1 pid).isEmpty
      · rw [if_pos hae, allTiles_nextTurn]
        unfold allTiles addLog
        dsimp only
        rw [hS]
      · rw [if_neg hae]
        unfold allTiles addLog
        dsimp only
        rw [hS]

theorem removeFirstKind_conserve (s : Suit) (w : Int) (l : List Tile) :
    ((removeFirstKind s w l).1.toList : Multiset Tile) +
      ((removeFirstKind s w l).2 : Multiset Tile) = (l : Multiset Tile) := by
  unfold removeFirstKind
  cases hfr : findRemove (fun t => decide (t.suit = s ∧ (t.value : Int) = w)) l with
  | none => simp
  | some r =>
    dsimp only
    obtain ⟨-, hperm, -⟩ := findRemove_spec _ _ r.1 r.2 (by rw [hfr])
    rw [Multiset.coe_eq_coe.mpr hperm, ← Multiset.cons_coe,
      ← Multiset.singleton_add]
    rfl

theorem chowExtract_conserve (tile : Tile) (hand : List Tile) :
    ((chowExtract tile hand).1 : Multiset Tile) +
      ((chowExtract tile hand).2 : Multiset Tile) = (hand : Multiset Tile) := by
  unfold chowExtract
  dsimp only
  have h1 := removeFirstKind_conserve tile.suit (chowPick tile hand).1 hand
  have h2 := removeFirstKind_conserve tile.suit (chowPick tile hand).2
    (removeFirstKind tile.suit (chowPick tile hand).1 hand).2
  rw [← Multiset.coe_add, add_assoc, h2]
  exact h1

theorem claimExtract_conserve (action : String) (tile : Tile) (hand : List Tile) :
    ((claimExtract action tile hand).1 : Multiset Tile) +
      ((claimExtract action tile hand).2 : Multiset Tile) = (hand : Multiset Tile) := by
  unfold claimExtract
  by_cases h1 : action = "碰"
  · rw [if_pos h1]
    dsimp only
    rw [Multiset.coe_eq_coe.mpr (List.reverse_perm _)]
    rw [Multiset.coe_add]
    exact Multiset.coe_eq_coe.mpr (extractMatches_perm _ _ _)
  · rw [if_neg h1]
    by_cases h2 : action = "杠"
    · rw [if_pos h2]
      dsimp only
      rw [Multiset.coe_eq_coe.mpr (List.reverse_perm _)]
      rw [Multiset.coe_add]
      exact Multiset.coe_eq_coe.mpr (extractMatches_perm _ _ _)
    · rw [if_neg h2]
      exact chowExtract_conserve tile hand

/-- A resolved claim conserves the tiles, provided the claimant differs
from the discarder and the discarder's last discard is the claimed tile
(both hold whenever the claim comes from the computed claim set). -/
theorem allTiles_resolveClaim (g : GameState) (tile : Tile) (fromP pid : Fin 4)
    (action : String) (hnp : pid ≠ fromP)
    (hlast : (g.players fromP).discards.getLast? = some tile) :
    allTiles (resolveClaim g tile fromP pid action) = allTiles g := by
  unfold resolveClaim
  dsimp only
  set C : PlayerState :=
    { g.players pid with
      hand := sortHand (claimExtract action tile (g.players pid).hand).2,
      melds := (g.players pid).melds ++
        [{ type := action,
           tiles := tile :: (claimExtract action tile (g.players pid).hand).1,
           fromPlayer := some fromP }] } with hC
  set D : PlayerState :=
    { g.players fromP with
      discards := (g.players fromP).discards.dropLast } with hD
  have hptC : playerTiles C = playerTiles (g.players pid) + {tile} := by
    rw [hC]
    unfold playerTiles
    dsimp only
    rw [coe_sortHand, List.map_append, List.sum_append]
    simp only [List.map_cons, List.map_nil, List.sum_cons, List.sum_nil]
    rw [← Multiset.cons_coe, ← Multiset.singleton_add,
      ← claimExtract_conserve action tile (g.players pid).hand]
    abel
  have hptD : playerTiles D + {tile} = playerTiles (g.players fromP) := by
    rw [hD]
    unfold playerTiles
    dsimp only
    have hdp : (g.players fromP).discards.dropLast ++ [tile] =
        (g.players fromP).discards := dropLast_append_of_getLast _ _ hlast
    conv_rhs => rw [← hdp]
    rw [← Multiset.coe_add, Multiset.coe_singleton]
    abel
  unfold allTiles
  dsimp only
  have e1 := sum_playerTiles_upd (updPlayer g.players pid C) fromP D
  rw [updPlayer_other _ _ _ _ (Ne.symm hnp)] at e1
  have e2 := sum_playerTiles_upd g.players pid C
  set S2 := ((List.finRange 4).map fun j =>
    playerTiles (updPlayer (updPlayer g.players pid C) fromP D j)).sum with hS2
  set S1 := ((List.finRange 4).map fun j =>
    playerTiles (updPlayer g.players pid C j)).sum with hS1
  set S0 := ((List.finRange 4).map fun j => playerTiles (g.players j)).sum with hS0
  have key : S2 + (playerTiles (g.players fromP) + playerTiles (g.players pid)) =
      S0 + (playerTiles (g.players fromP) + playerTiles (g.players pid)) := by
    calc S2 + (playerTiles (g.players fromP) + playerTiles (g.players pid))
        = (S2 + playerTiles (g.players fromP)) + playerTiles (g.players pid) := by
          abel
      _ = (S1 + playerTiles D) + playerTiles (g.players pid) := by rw [e1]
      _ = (S1 + playerTiles (g.players pid)) + playerTiles D := by abel
      _ = (S0 + playerTiles C) + playerTiles D := by rw [e2]
      _ = S0 + (playerTiles D + {tile}) + playerTiles (g.players pid) := by
          rw [hptC]
          abel
      _ = S0 + (playerTiles (g.players fromP) + playerTiles (g.players pid)) := by
          rw [hptD]
          abel
  have hSS := add_right_cancel key
  rw [hSS]

/-- `performAction` conserves tiles under the reachable-state facts:
the Win branch and the unknown-action branch move nothing, and the
claim branch is `allTiles_resolveClaim`. -/
theorem allTiles_performAction (st : EngineState) (pid fromP : Fin 4)
    (tile : Tile) (action : String)
    (hld : st.game.lastDiscard = some (tile, fromP))
    (hlast : (st.game.players fromP).discards.getLast? = some tile)
    (hnp : pid ≠ fromP) :
    allTiles (performAction st pid action).game = allTiles st.game := by
  unfold performAction
  rw [hld]
  dsimp only
  by_cases h1 : action = "胡"
  · rw [if_pos h1]
    rfl
  · rw [if_neg h1]
    by_cases h2 : action = "碰" ∨ action = "杠" ∨ action = "吃"
    · rw [if_pos h2]
      exact allTiles_resolveClaim st.game tile fromP pid action hnp hlast
    · rw [if_neg h2]

/-- The Kong replacement draw conserves tiles when it succeeds. -/
theorem allTiles_kongReplacementDraw (st st2 : EngineState) (pid : Fin 4)
    (h : kongReplacementDraw st pid = some st2) :
    allTiles st2.game = allTiles st.game := by
  unfold kongReplacementDraw at h
  cases hpd : popDeck st.game.deck with
  | none => rw [hpd] at h; cases h
  | some r =>
    rw [hpd] at h
    dsimp only at h
    obtain rfl := (Option.some.inj h).symm
    unfold allTiles
    dsimp only
    have hdeck := popDeck_some st.game.deck r hpd
    have hsum := sum_playerTiles_upd st.game.players pid
      { st.game.players pid with
        hand := sortHand ((st.game.players pid).hand ++ [r.1]) }
    rw [playerTiles_push_sorted] at hsum
    apply add_right_cancel (b := playerTiles (st.game.players pid))
    rw [add_assoc, hsum, hdeck]
    abel

/-- The conserved quantity during the deal: wall plus dealt tiles. -/
def dealMeasure (s : List Tile × (Fin 4 → PlayerState)) : Multiset Tile :=
  (s.1 : Multiset Tile) +
    ((List.finRange 4).map fun i => playerTiles (s.2 i)).sum

theorem dealOne_conserve (i : Fin 4) (s s2 : List Tile × (Fin 4 → PlayerState))
    (h : dealOne i s = some s2) : dealMeasure s2 = dealMeasure s := by
  unfold dealOne at h
  cases hpd : popDeck s.1 with
  | none => rw [hpd] at h; cases h
  | some r =>
    rw [hpd] at h
    obtain rfl := (Option.some.inj h).symm
    unfold dealMeasure
    dsimp only
    have hdeck := popDeck_some s.1 r hpd
    have hsum := sum_playerTiles_upd s.2 i
      { s.2 i with hand := (s.2 i).hand ++ [r.1] }
    rw [playerTiles_push] at hsum
    apply add_right_cancel (b := playerTiles (s.2 i))
    rw [add_assoc, hsum, hdeck]
    abel

theorem dealRound_conserve (s s2 : List Tile × (Fin 4 → PlayerState))
    (h : dealRound s = some s2) : dealMeasure s2 = dealMeasure s := by
  unfold dealRound at h
  rcases Option.bind_eq_some.mp h with ⟨c, hc, h3⟩
  rcases Option.bind_eq_some.mp hc with ⟨b, hb, h2⟩
  rcases Option.bind_eq_some.mp hb with ⟨a, ha, h1⟩
  rw [dealOne_conserve 3 c s2 h3, dealOne_conserve 2 b c h2,
    dealOne_conserve 1 a b h1, dealOne_conserve 0 s a ha]

theorem dealAll_conserve :
    ∀ (n : Nat) (s s2 : List Tile × (Fin 4 → PlayerState)),
      dealAll n s = some s2 → dealMeasure s2 = dealMeasure s := by
  intro n
  induction n with
  | zero =>
    intro s s2 h
    obtain rfl := Option.some.inj h
    rfl
  | succ n ih =>
    intro s s2 h
    unfold dealAll at h
    rcases Option.bind_eq_some.mp h with ⟨a, hr, hrec⟩
    rw [ih a s2 hrec, dealRound_conserve s a hr]

/-- `initGame` deals without losing or duplicating a tile: the resulting
state partitions exactly the input deck. -/
theorem allTiles_initGame (deck : List Tile) (st : EngineState)
    (h : initGame deck = some st) : allTiles st.game = (deck : Multiset Tile) := by
  unfold initGame at h
  rcases Option.bind_eq_some.mp h with ⟨s, hda, h2⟩
  rcases Option.bind_eq_some.mp h2 with ⟨r, hpd, h3⟩
  obtain rfl := (Option.some.inj h3).symm
  unfold allTiles
  dsimp only
  have hsort : ((List.finRange 4).map fun i =>
      playerTiles { updPlayer s.2 0
          { s.2 0 with hand := (s.2 0).hand ++ [r.1] } i with
        hand := sortHand ((updPlayer s.2 0
          { s.2 0 with hand := (s.2 0).hand ++ [r.1] } i).hand) }).sum =
      ((List.finRange 4).map fun i =>
        playerTiles (updPlayer s.2 0
          { s.2 0 with hand := (s.2 0).hand ++ [r.1] } i)).sum := by
    apply congrArg List.sum
    apply List.map_congr_left
    intro j hj
    unfold playerTiles
    dsimp only
    rw [coe_sortHand]
  rw [hsort]
  have hsum := sum_playerTiles_upd s.2 0
    { s.2 0 with hand := (s.2 0).hand ++ [r.1] }
  rw [playerTiles_push] at hsum
  have hdeck := popDeck_some s.1 r hpd
  have hdm := dealAll_conserve 13 (deck, initPlayers) s hda
  have hinit : dealMeasure (deck, initPlayers) = (deck : Multiset Tile) := by
    unfold dealMeasure
    have hz : ∀ i : Fin 4, playerTiles (initPlayers i) = 0 := by
      intro i
      rfl
    simp [hz]
  rw [hinit] at hdm
  unfold dealMeasure at hdm
  apply add_right_cancel (b := playerTiles (s.2 0))
  rw [add_assoc, hsum, ← hdm, hdeck]
  abel

/-- Claim C10: every engine transition — initial deal, turn draw,
discard, claim resolution (under the reachable-state facts that the
claimant is not the discarder and the claimed tile is the discarder's
last discard), and Kong replacement draw — preserves the multiset of
physical tiles partitioned among wall, hands, discard piles and melds. -/
theorem claim_C10 :
    (∀ (deck : List Tile) (st : EngineState),
      initGame deck = some st → allTiles st.game = (deck : Multiset Tile)) ∧
    (∀ (st : EngineState) (pid : Fin 4),
      allTiles (nextTurn st pid).game = allTiles st.game) ∧
    (∀ (st : EngineState) (pid : Fin 4) (tid : Nat),
      allTiles (handleDiscard st pid tid).game = allTiles st.game) ∧
    (∀ (st : EngineState) (pid fromP : Fin 4) (tile : Tile) (action : String),
      st.game.lastDiscard = some (tile, fromP) →
      (st.game.players fromP).discards.getLast? = some tile →
      pid ≠ fromP →
      allTiles (performAction st pid action).game = allTiles st.game) ∧
    (∀ (st st2 : EngineState) (pid : Fin 4),
      kongReplacementDraw st pid = some st2 →
      allTiles st2.game = allTiles st.game) :=
  ⟨allTiles_initGame, allTiles_nextTurn, allTiles_handleDiscard,
    fun st pid fromP tile action hld hlast hnp =>
      allTiles_performAction st pid fromP tile action hld hlast hnp,
    fun st st2 pid h => allTiles_kongReplacementDraw st st2 pid h⟩

/-- Witness for C10: a concrete Pung resolution conserves the tiles. -/
theorem claim_C10_witness :
    allTiles (performAction fixtureSt 2 "碰").game = allTiles fixtureSt.game :=
  claim_C10.2.2.2.1 fixtureSt 2 1 (mkTile Suit.Wan 5 99) "碰" rfl
    (by decide) (by decide)

end Mahjong
